import Mathlib

/-!
# Verification of `libs/IO/Image.h` (namespace `SEACAVE`)

Shallow embedding of

* the `PIXELFORMAT` enumeration,
* the geometry accessor `CImage::GetDataSize`,
* the template `CImage::findMinMaxPercentile<T>` for the integer element types
  (`findMinMaxPercentile`) and for `T = float`, `T = double` (`findMinMaxPercentileF`).

Conventions of the embedding.

* Machine integers are `Nat`/`Int`; arithmetic carried out in a C++ integer type is
  reduced modulo `2 ^ bits` explicitly (`wrap`).  `int` is taken to be 32 bits wide, so the
  element types narrower than 32 bits are promoted to `int` before `aMax - aMin`.
* A `double` is the rational number it denotes.  Every arithmetic operation on doubles is
  the exact rational operation followed by `fl`, rounding to the nearest number with a
  53 bit significand, ties to even (IEEE 754 binary64, default rounding mode).  The exponent
  is not bounded: operands here are integers of at most 64 bits, quotients of two such
  numbers, and differences with the literals `0.1`/`0.9`, so neither overflow nor the
  subnormal range of binary64 is reached and no NaN arises (`range == 0` is excluded
  before the division).
* `abs` in the source is the `double` overload (the distance of the percentile to the
  literal), which is exact.
* At a floating-point element type the values are finite rationals, the two infinities and
  NaN (`FVal`); arithmetic rounds to the format with overflow to infinity and gradual
  underflow (`roundF`), and comparisons with NaN are false.
* The out-parameters `*min`, `*max` have a value before the call; it is the argument `out0`.
* The buffer `data` is the read function `p : Nat → Int` (`p i` is the element `p[i]`), and
  `size` is a natural number; the theorems hold for every `size`, in particular for every
  value of the 32 bit type `Size`, for which the loop counter cannot wrap.
-/

namespace SEACAVE

/-! ## `PIXELFORMAT` -/

/-- The enumerators of `enum PIXELFORMAT_TYPE`, in declaration order. -/
inductive PIXELFORMAT
  | PF_UNKNOWN
  | PF_A8
  | PF_GRAY8
  | PF_GRAYU16
  | PF_GRAYF32
  | PF_R5G6B5
  | PF_R8G8B8
  | PF_R8G8B8A8
  | PF_A8R8G8B8
  | PF_B8G8R8
  | PF_B8G8R8A8
  | PF_A8B8G8R8
  | PF_DXT1
  | PF_DXT2
  | PF_DXT3
  | PF_DXT4
  | PF_DXT5
  | PF_3DC
  deriving DecidableEq, Repr, Fintype

/-- The sections of the enumeration, as marked by the comments in the declaration. -/
inductive FormatGroup
  | unknown
  | gray
  | uncompressedRGB
  | uncompressedBGR
  | compressed
  deriving DecidableEq, Repr

open PIXELFORMAT in
/-- The enumerator list as written in the source: each enumerator with its section and its
explicit initialiser, when it has one (`PF_UNKNOWN = 0`, `PF_DXT1 = 128`). -/
def pixelFormatDecl : List (PIXELFORMAT × FormatGroup × Option Nat) :=
  [ (PF_UNKNOWN, .unknown, some 0),
    (PF_A8, .gray, none),
    (PF_GRAY8, .gray, none),
    (PF_GRAYU16, .gray, none),
    (PF_GRAYF32, .gray, none),
    (PF_R5G6B5, .uncompressedRGB, none),
    (PF_R8G8B8, .uncompressedRGB, none),
    (PF_R8G8B8A8, .uncompressedRGB, none),
    (PF_A8R8G8B8, .uncompressedRGB, none),
    (PF_B8G8R8, .uncompressedBGR, none),
    (PF_B8G8R8A8, .uncompressedBGR, none),
    (PF_A8B8G8R8, .uncompressedBGR, none),
    (PF_DXT1, .compressed, some 128),
    (PF_DXT2, .compressed, none),
    (PF_DXT3, .compressed, none),
    (PF_DXT4, .compressed, none),
    (PF_DXT5, .compressed, none),
    (PF_3DC, .compressed, none) ]

/-- The C rule for enumerator values: an explicit initialiser gives the value, otherwise
the value is one more than that of the previous enumerator (`next`). -/
def enumValues {α β : Type} : Nat → List (α × β × Option Nat) → List (α × Nat)
  | _, [] => []
  | next, (a, _, init) :: rest =>
    let v := init.getD next
    (a, v) :: enumValues (v + 1) rest

/-- Numeric value of a format tag. -/
def PIXELFORMAT.val (f : PIXELFORMAT) : Nat :=
  ((enumValues 0 pixelFormatDecl).lookup f).getD 0

/-- Section of the enumeration a format tag is declared in. -/
def PIXELFORMAT.group (f : PIXELFORMAT) : FormatGroup :=
  ((pixelFormatDecl.lookup f).map Prod.fst).getD .unknown

/-- A tag declared in the `// compressed` section. -/
def PIXELFORMAT.isCompressed (f : PIXELFORMAT) : Bool :=
  f.group == .compressed

/-- A tag declared in one of the uncompressed sections (gray, RGB, BGR). -/
def PIXELFORMAT.isUncompressed (f : PIXELFORMAT) : Bool :=
  f.group == .gray || f.group == .uncompressedRGB || f.group == .uncompressedBGR

/-! ## `CImage` geometry -/

/-- Width of `CImage::Size` (`uint32_t`). -/
def sizeBits : Nat := 32

/-- The geometry members of `CImage`; each is a `Size`, a value below `2 ^ 32`. -/
structure CImage where
  m_width : Nat
  m_height : Nat
  m_dataWidth : Nat
  m_dataHeight : Nat
  m_stride : Nat
  m_lineWidth : Nat
  deriving Repr

/-- Every `Size` member holds a 32 bit value. -/
def CImage.WellTyped (img : CImage) : Prop :=
  img.m_width < 2 ^ sizeBits ∧ img.m_height < 2 ^ sizeBits ∧
  img.m_dataWidth < 2 ^ sizeBits ∧ img.m_dataHeight < 2 ^ sizeBits ∧
  img.m_stride < 2 ^ sizeBits ∧ img.m_lineWidth < 2 ^ sizeBits

/-- `size_t GetDataSize() const { return m_lineWidth * m_dataHeight; }`: both operands are
`uint32_t`, so the product is formed in 32 bit unsigned arithmetic and only the result is
converted to `size_t`. -/
def CImage.GetDataSize (img : CImage) : Nat :=
  (img.m_lineWidth * img.m_dataHeight) % 2 ^ sizeBits

/-- A 16384 x 65536 image of 4 byte pixels: 65536 bytes per line, 65536 lines. -/
def wideImage : CImage :=
  { m_width := 16384, m_height := 65536, m_dataWidth := 16384, m_dataHeight := 65536,
    m_stride := 4, m_lineWidth := 65536 }

/-! ## Integer element types -/

/-- The integer types the template parameter `T` ranges over. -/
inductive ElemType
  | int8
  | uint8
  | int16
  | uint16
  | int32
  | uint32
  | int64
  | uint64
  deriving DecidableEq, Repr, Fintype

namespace ElemType

/-- Width in bits. -/
def bits : ElemType → Nat
  | int8 | uint8 => 8
  | int16 | uint16 => 16
  | int32 | uint32 => 32
  | int64 | uint64 => 64

/-- Signedness. -/
def isSigned : ElemType → Bool
  | int8 | int16 | int32 | int64 => true
  | uint8 | uint16 | uint32 | uint64 => false

/-- Least representable value. -/
def minVal (T : ElemType) : Int :=
  if T.isSigned then -(2 ^ (T.bits - 1)) else 0

/-- Greatest representable value. -/
def maxVal (T : ElemType) : Int :=
  if T.isSigned then 2 ^ (T.bits - 1) - 1 else 2 ^ T.bits - 1

/-- The value `x` is representable in `T`. -/
def InRange (T : ElemType) (x : Int) : Prop :=
  T.minVal ≤ x ∧ x ≤ T.maxVal

instance (T : ElemType) (x : Int) : Decidable (T.InRange x) := by
  unfold InRange; infer_instance

/-- Integral promotion: a type narrower than `int` is promoted to `int`, the others are
unchanged.  `aMax - aMin` is evaluated in the promoted type. -/
def promote : ElemType → ElemType
  | int8 | uint8 | int16 | uint16 => int32
  | T => T

/-- Reduction of a mathematical integer into the value range of `T` modulo `2 ^ bits`
(two's complement for the signed types). -/
def wrap (T : ElemType) (x : Int) : Int :=
  if T.isSigned then (x + 2 ^ (T.bits - 1)) % 2 ^ T.bits - 2 ^ (T.bits - 1)
  else x % 2 ^ T.bits

end ElemType

/-! ## binary64 rounding -/

/-- Auxiliary for `natLog2`: `fuel` bounds the number of halvings. -/
def log2Fuel : Nat → Nat → Nat
  | 0, _ => 0
  | fuel + 1, n => if n < 2 then 0 else log2Fuel fuel (n / 2) + 1

/-- Floor of the binary logarithm of a positive natural number (`0` at `0`). -/
def natLog2 (n : Nat) : Nat := log2Fuel n n

/-- The power `2 ^ k` for an integer exponent. -/
def pow2 : Int → ℚ
  | Int.ofNat n => ((2 ^ n : Nat) : ℚ)
  | Int.negSucc n => 1 / ((2 ^ (n + 1) : Nat) : ℚ)

/-- Binary exponent of a nonzero rational: the `e` with `2 ^ e ≤ |x| < 2 ^ (e + 1)`. -/
def ilog2 (x : ℚ) : Int :=
  let k : Int := (natLog2 x.num.natAbs : Int) - (natLog2 x.den : Int)
  if pow2 k ≤ |x| then k else k - 1

/-- Rounding of a rational to the nearest integer, ties to the even neighbour. -/
def rne (m : ℚ) : Int :=
  let f := ⌊m⌋
  let r := m - f
  if r < 1 / 2 then f
  else if 1 / 2 < r then f + 1
  else if f % 2 = 0 then f else f + 1

/-- Rounding to binary64: the significand is scaled to `[2 ^ 52, 2 ^ 53)`, rounded to an
integer with ties to even, and scaled back. -/
def fl (x : ℚ) : ℚ :=
  let s := pow2 (ilog2 x - 52)
  (rne (x / s) : ℚ) * s

/-- Conversion `static_cast<double>(n)` of an integer. -/
def toDouble (n : Int) : ℚ := fl (n : ℚ)

/-- The literal `0.1`. -/
def lit01 : ℚ := fl (1 / 10)

/-- The literal `0.9`. -/
def lit09 : ℚ := fl (9 / 10)

/-- The literal `9999.0`. -/
def sentinel : ℚ := fl 9999

/-! ## Floating-point element types -/

/-- A value of a binary floating-point type: a finite number, an infinity or NaN.  The two
zeros are not distinguished: no operation of the function depends on the sign of a zero. -/
inductive FVal
  | fin (q : ℚ)
  | pinf
  | ninf
  | nan
  deriving DecidableEq

/-- A binary interchange format: `t` fraction bits, largest exponent `emax`, least normal
exponent `emin`. -/
structure FloatFormat where
  t : Nat
  emax : Int
  emin : Int
  deriving DecidableEq

/-- The format of `float`. -/
def binary32 : FloatFormat := { t := 23, emax := 127, emin := -126 }

/-- The format of `double`. -/
def binary64 : FloatFormat := { t := 52, emax := 1023, emin := -1022 }

/-- Exponent of the least positive (subnormal) number of the format. -/
def FloatFormat.qexp (F : FloatFormat) : Int := F.emin - (F.t : Int)

/-- Rounding to a significand of `t + 1` bits with unbounded exponent, ties to even. -/
def flp (t : Nat) (x : ℚ) : ℚ :=
  let s := pow2 (ilog2 x - (t : Int))
  (rne (x / s) : ℚ) * s

/-- Rounding of an exact result to the format `F`, round to nearest, ties to even: below
`2 ^ emin` the result is a multiple of the least subnormal number; otherwise the significand
is rounded to `t + 1` bits, and a rounded magnitude of `2 ^ (emax + 1)` or more overflows to
the infinity of the same sign. -/
def roundF (F : FloatFormat) (x : ℚ) : FVal :=
  if |x| < pow2 F.emin then .fin ((rne (x / pow2 F.qexp) : ℚ) * pow2 F.qexp)
  else
    let y := flp F.t x
    if pow2 (F.emax + 1) ≤ |y| then (if 0 < x then .pinf else .ninf) else .fin y

/-- The finite number `q` is a value of the format `F`. -/
def Representable (F : FloatFormat) (q : ℚ) : Prop := roundF F q = .fin q

instance (F : FloatFormat) (q : ℚ) : Decidable (Representable F q) := by
  unfold Representable; infer_instance

/-- Subtraction `a - b` in the format `F`. -/
def subF (F : FloatFormat) : FVal → FVal → FVal
  | .nan, _ => .nan
  | _, .nan => .nan
  | .fin x, .fin y => roundF F (x - y)
  | .fin _, .pinf => .ninf
  | .fin _, .ninf => .pinf
  | .pinf, .fin _ => .pinf
  | .ninf, .fin _ => .ninf
  | .pinf, .ninf => .pinf
  | .ninf, .pinf => .ninf
  | .pinf, .pinf => .nan
  | .ninf, .ninf => .nan

/-- Division `a / b` in the format `F`.  A zero divisor is taken as `+0`; the function
divides by `range` only, and only after `range == 0` has been excluded. -/
def divF (F : FloatFormat) : FVal → FVal → FVal
  | .nan, _ => .nan
  | _, .nan => .nan
  | .fin x, .fin y =>
    if y = 0 then (if x = 0 then .nan else if 0 < x then .pinf else .ninf)
    else roundF F (x / y)
  | .fin _, .pinf => .fin 0
  | .fin _, .ninf => .fin 0
  | .pinf, .fin y => if 0 ≤ y then .pinf else .ninf
  | .ninf, .fin y => if 0 ≤ y then .ninf else .pinf
  | .pinf, .pinf => .nan
  | .pinf, .ninf => .nan
  | .ninf, .pinf => .nan
  | .ninf, .ninf => .nan

/-- Absolute value. -/
def absF : FVal → FVal
  | .fin x => .fin |x|
  | .pinf => .pinf
  | .ninf => .pinf
  | .nan => .nan

/-- The comparison `a < b`; false when either operand is NaN. -/
def ltF : FVal → FVal → Bool
  | .fin x, .fin y => decide (x < y)
  | .fin _, .pinf => true
  | .ninf, .fin _ => true
  | .ninf, .pinf => true
  | _, _ => false

/-- The comparison `a == 0`; false for NaN and the infinities. -/
def isZeroF : FVal → Bool
  | .fin x => decide (x = 0)
  | _ => false

/-- The `double` literal `0.1`. -/
def lit01F : FVal := roundF binary64 (1 / 10)

/-- The `double` literal `0.9`. -/
def lit09F : FVal := roundF binary64 (9 / 10)

/-- The `double` literal `9999.0`. -/
def sentinelF : FVal := roundF binary64 9999

/-! ## `findMinMaxPercentile` -/

namespace CImage

/-- One iteration of the first loop: `if (p[i] > aMax) aMax = p[i]; if (p[i] < aMin) aMin = p[i];`.
The state is `(aMin, aMax)`. -/
def scanStep (p : Nat → Int) (s : Int × Int) (i : Nat) : Int × Int :=
  let aMax := if p i > s.2 then p i else s.2
  let aMin := if p i < s.1 then p i else s.1
  (aMin, aMax)

/-- The first loop, `for (Size i = 1; i < size; i++)`, started from `aMin = aMax = p[0]`. -/
def scanMinMax (p : Nat → Int) (size : Nat) : Int × Int :=
  (List.range' 1 (size - 1)).foldl (scanStep p) (p 0, p 0)

/-- The value of `range`: `static_cast<double>(aMax - aMin)`, the subtraction being done in
the promoted element type. -/
def rangeOf (T : ElemType) (aMin aMax : Int) : ℚ :=
  toDouble (T.promote.wrap (aMax - aMin))

/-- The value of `percentile` for the element `v`:
`(static_cast<double>(p[i]) - static_cast<double>(aMin)) / range`. -/
def percentileOf (aMin : Int) (range : ℚ) (v : Int) : ℚ :=
  fl (fl (toDouble v - toDouble aMin) / range)

/-- The value of `minP`: `abs(percentile - 0.1)`. -/
def minPOf (aMin : Int) (range : ℚ) (v : Int) : ℚ :=
  |fl (percentileOf aMin range v - lit01)|

/-- The value of `maxP`: `abs(percentile - 0.9)`. -/
def maxPOf (aMin : Int) (range : ℚ) (v : Int) : ℚ :=
  |fl (percentileOf aMin range v - lit09)|

/-- State of the second loop. -/
structure PState where
  min : Int
  max : Int
  closestMinP : ℚ
  closestMaxP : ℚ
  deriving DecidableEq

/-- One iteration of the second loop. -/
def selectStep (p : Nat → Int) (aMin : Int) (range : ℚ) (s : PState) (i : Nat) : PState :=
  let minP := minPOf aMin range (p i)
  let maxP := maxPOf aMin range (p i)
  let s1 : PState :=
    if minP < s.closestMinP then { s with min := p i, closestMinP := minP } else s
  if maxP < s1.closestMaxP then { s1 with max := p i, closestMaxP := maxP } else s1

/-- The second loop, `for (Size i = 0; i < size; i++)`. -/
def selectLoop (p : Nat → Int) (size : Nat) (aMin : Int) (range : ℚ) (out0 : Int × Int) :
    PState :=
  (List.range size).foldl (selectStep p aMin range)
    { min := out0.1, max := out0.2, closestMinP := sentinel, closestMaxP := sentinel }

/-- The template `findMinMaxPercentile<T>(data, size, min, max)` for an integer type `T`.
`p i` is the value of `reinterpret_cast<T*>(data)[i]`, `out0` the values of `*min`, `*max`
before the call; the result is `(*min, *max)` after the call. -/
def findMinMaxPercentile (T : ElemType) (p : Nat → Int) (size : Nat) (out0 : Int × Int) :
    Int × Int :=
  if size = 0 then (0, 0)
  else
    let mm := scanMinMax p size
    let range := rangeOf T mm.1 mm.2
    if range = 0 then (0, 0)
    else
      let s := selectLoop p size mm.1 range out0
      (s.min, s.max)

/-! ### The same function with the element reads recorded

Every evaluation of `p[i]` in the source appends `i` to the log. -/

/-- First loop body with reads: the comparison `p[i] > aMax`, the assignment `aMax = p[i]`
when taken, the comparison `p[i] < aMin`, the assignment `aMin = p[i]` when taken. -/
def scanStepTraced (p : Nat → Int) (s : (Int × Int) × List Nat) (i : Nat) :
    (Int × Int) × List Nat :=
  let r1 := if p i > s.1.2 then (p i, s.2 ++ [i, i]) else (s.1.2, s.2 ++ [i])
  let r2 := if p i < s.1.1 then (p i, r1.2 ++ [i, i]) else (s.1.1, r1.2 ++ [i])
  ((r2.1, r1.1), r2.2)

/-- First loop with reads; `aMin = p[0]` and `aMax = p[0]` read element `0` twice. -/
def scanMinMaxTraced (p : Nat → Int) (size : Nat) : (Int × Int) × List Nat :=
  (List.range' 1 (size - 1)).foldl (scanStepTraced p) ((p 0, p 0), [0, 0])

/-- Second loop body with reads: `p[i]` in the percentile, and `p[i]` in either assignment
when taken. -/
def selectStepTraced (p : Nat → Int) (aMin : Int) (range : ℚ) (s : PState × List Nat)
    (i : Nat) : PState × List Nat :=
  let minP := minPOf aMin range (p i)
  let maxP := maxPOf aMin range (p i)
  let s1 : PState × List Nat :=
    if minP < s.1.closestMinP then ({ s.1 with min := p i, closestMinP := minP }, s.2 ++ [i, i])
    else (s.1, s.2 ++ [i])
  if maxP < s1.1.closestMaxP then ({ s1.1 with max := p i, closestMaxP := maxP }, s1.2 ++ [i])
  else s1

/-- The function together with the list of buffer indices it reads, in order. -/
def findMinMaxPercentileTraced (T : ElemType) (p : Nat → Int) (size : Nat)
    (out0 : Int × Int) : (Int × Int) × List Nat :=
  if size = 0 then ((0, 0), [])
  else
    let mm := scanMinMaxTraced p size
    let range := rangeOf T mm.1.1 mm.1.2
    if range = 0 then ((0, 0), mm.2)
    else
      let s := (List.range size).foldl (selectStepTraced p mm.1.1 range)
        ({ min := out0.1, max := out0.2, closestMinP := sentinel, closestMaxP := sentinel },
          mm.2)
      ((s.1.min, s.1.max), s.2)

/-- The buffer `[xs[0], xs[1], ...]` as a memory read function (reads past the end give `0`). -/
def ofList (xs : List Int) : Nat → Int := fun i => xs.getD i 0

/-- The first `size` elements of the buffer, in order. -/
def contents (p : Nat → Int) (size : Nat) : List Int := (List.range size).map p

/-! ### The template at a floating-point element type

`T = float` is the format `binary32`, `T = double` the format `binary64`.  Comparisons and
`aMax - aMin` are carried out in `T`; the conversion of a `T` value to `double` is exact and
all other arithmetic is `double` arithmetic. -/

/-- First loop body at a floating-point type. -/
def scanStepF (p : Nat → FVal) (s : FVal × FVal) (i : Nat) : FVal × FVal :=
  let aMax := if ltF s.2 (p i) then p i else s.2
  let aMin := if ltF (p i) s.1 then p i else s.1
  (aMin, aMax)

/-- First loop at a floating-point type. -/
def scanMinMaxF (p : Nat → FVal) (size : Nat) : FVal × FVal :=
  (List.range' 1 (size - 1)).foldl (scanStepF p) (p 0, p 0)

/-- The value of `range` at a floating-point type: `aMax - aMin` in `T`, converted to
`double` without change. -/
def rangeOfF (F : FloatFormat) (aMin aMax : FVal) : FVal := subF F aMax aMin

/-- The value of `percentile` at a floating-point type. -/
def percentileOfF (aMin range v : FVal) : FVal :=
  divF binary64 (subF binary64 v aMin) range

/-- The value of `minP` at a floating-point type. -/
def minPOfF (aMin range v : FVal) : FVal :=
  absF (subF binary64 (percentileOfF aMin range v) lit01F)

/-- The value of `maxP` at a floating-point type. -/
def maxPOfF (aMin range v : FVal) : FVal :=
  absF (subF binary64 (percentileOfF aMin range v) lit09F)

/-- State of the second loop at a floating-point type. -/
structure PStateF where
  min : FVal
  max : FVal
  closestMinP : FVal
  closestMaxP : FVal
  deriving DecidableEq

/-- One iteration of the second loop at a floating-point type. -/
def selectStepF (p : Nat → FVal) (aMin range : FVal) (s : PStateF) (i : Nat) : PStateF :=
  let minP := minPOfF aMin range (p i)
  let maxP := maxPOfF aMin range (p i)
  let s1 : PStateF :=
    if ltF minP s.closestMinP then { s with min := p i, closestMinP := minP } else s
  if ltF maxP s1.closestMaxP then { s1 with max := p i, closestMaxP := maxP } else s1

/-- The second loop at a floating-point type. -/
def selectLoopF (p : Nat → FVal) (size : Nat) (aMin range : FVal) (out0 : FVal × FVal) :
    PStateF :=
  (List.range size).foldl (selectStepF p aMin range)
    { min := out0.1, max := out0.2, closestMinP := sentinelF, closestMaxP := sentinelF }

/-- The template `findMinMaxPercentile<T>` for `T = float` (`F = binary32`) and `T = double`
(`F = binary64`).  `out0` holds `*min`, `*max` before the call, the result `*min`, `*max`
after it. -/
def findMinMaxPercentileF (F : FloatFormat) (p : Nat → FVal) (size : Nat)
    (out0 : FVal × FVal) : FVal × FVal :=
  if size = 0 then (.fin 0, .fin 0)
  else
    let mm := scanMinMaxF p size
    let range := rangeOfF F mm.1 mm.2
    if isZeroF range then (.fin 0, .fin 0)
    else
      let s := selectLoopF p size mm.1 range out0
      (s.min, s.max)

/-- The loop pattern of either tracker at a floating-point type, taken on its own. -/
def trackStepF (p : Nat → FVal) (d : FVal → FVal) (s : FVal × FVal) (i : Nat) : FVal × FVal :=
  if ltF (d (p i)) s.2 then (p i, d (p i)) else s

/-- The floating-point buffer `[xs[0], xs[1], ...]` as a read function. -/
def ofListF (xs : List FVal) : Nat → FVal := fun i => xs.getD i (.fin 0)

/-- The value `v` is a finite value of the format `F` or `+inf`: neither NaN nor `-inf`. -/
def isFiniteOrPosInf (F : FloatFormat) : FVal → Bool
  | .fin q => decide (Representable F q)
  | .pinf => true
  | _ => false

/-- None of the first `size` elements is NaN or `-inf`: each is a finite value of the format
`F` or `+inf`. -/
def NoNaNNoNegInf (F : FloatFormat) (p : Nat → FVal) (size : Nat) : Prop :=
  ∀ i, i < size → isFiniteOrPosInf F (p i) = true

instance (F : FloatFormat) (p : Nat → FVal) (size : Nat) :
    Decidable (NoNaNNoNegInf F p size) := by
  unfold NoNaNNoNegInf; infer_instance

/-- Two of the first `size` elements differ. -/
def NonConstantF (p : Nat → FVal) (size : Nat) : Prop :=
  ∃ i, i < size ∧ ∃ j, j < size ∧ p i ≠ p j

instance (p : Nat → FVal) (size : Nat) : Decidable (NonConstantF p size) := by
  unfold NonConstantF; infer_instance

/-- The `float` buffer `[+inf, -inf]`. -/
def infPairBuf : Nat → FVal := ofListF [.pinf, .ninf]

/-- The `float` buffer `[NaN, 1, 2]`. -/
def nanFirstBuf : Nat → FVal := ofListF [.nan, .fin 1, .fin 2]

/-- The `float` buffer `[+inf, +inf]`. -/
def infConstBuf : Nat → FVal := ofListF [.pinf, .pinf]

/-- The `float` buffer `[+inf, 0, 2, 10]`. -/
def floatInfBuf : Nat → FVal := ofListF [.pinf, .fin 0, .fin 2, .fin 10]

/-- The `float` buffer `[5, 5, 5]`. -/
def floatConstBuf : Nat → FVal := ofListF [.fin 5, .fin 5, .fin 5]

/-! ### Concrete buffers used below -/

/-- The `int32` buffer holding the least and the greatest `int32` value. -/
def extremesBuf : Nat → Int := ofList [-2147483648, 2147483647]

/-- The buffer `[0, 2, 10]`. -/
def tieBufA : Nat → Int := ofList [0, 2, 10]

/-- The buffer `[2, 0, 10]`, a permutation of `tieBufA`. -/
def tieBufB : Nat → Int := ofList [2, 0, 10]

/-- The buffer `[1, 2, 0, 15]`. -/
def roundTieBuf : Nat → Int := ofList [1, 2, 0, 15]

/-- The `uint64` buffer `[2^63, 2^63 + 1]`. -/
def collapseBuf : Nat → Int := ofList [9223372036854775808, 9223372036854775809]

/-- The `uint64` buffer `[2^63 + 1, 2^63]`, a permutation of `collapseBuf`. -/
def collapseBufRev : Nat → Int := ofList [9223372036854775809, 9223372036854775808]

/-- The buffer `[0, 1, 10]`. -/
def shiftBuf : Nat → Int := ofList [0, 1, 10]

/-- The buffer `[10, 0, 1]`, a permutation of `shiftBuf`. -/
def shiftBufRot : Nat → Int := ofList [10, 0, 1]

/-! ### Specification vocabulary -/

/-- The loop pattern of either tracker taken on its own: keep the element whose distance
`d` is strictly smaller than the smallest seen so far.  The state is
`(selected element, smallest distance)`. -/
def trackStep (p : Nat → Int) (d : Int → ℚ) (s : Int × ℚ) (i : Nat) : Int × ℚ :=
  if d (p i) < s.2 then (p i, d (p i)) else s

/-- The index `i` is the least index below `size` at which `d` is minimal. -/
def FirstArgmin (d : Nat → ℚ) (size i : Nat) : Prop :=
  i < size ∧ (∀ k, k < size → d i ≤ d k) ∧ (∀ k, k < i → d i < d k)

instance (d : Nat → ℚ) (size i : Nat) : Decidable (FirstArgmin d size i) := by
  unfold FirstArgmin; infer_instance

/-- The value `m` is the true minimum of the first `size` elements. -/
def IsMin (p : Nat → Int) (size : Nat) (m : Int) : Prop :=
  (∃ i, i < size ∧ p i = m) ∧ ∀ i, i < size → m ≤ p i

/-- The value `m` is the true maximum of the first `size` elements. -/
def IsMax (p : Nat → Int) (size : Nat) (m : Int) : Prop :=
  (∃ i, i < size ∧ p i = m) ∧ ∀ i, i < size → p i ≤ m

instance (p : Nat → Int) (size : Nat) (m : Int) : Decidable (IsMin p size m) := by
  unfold IsMin; infer_instance

instance (p : Nat → Int) (size : Nat) (m : Int) : Decidable (IsMax p size m) := by
  unfold IsMax; infer_instance

/-- Exact normalised position of the value `v` between the true minimum `lo` and the true
maximum `hi`: `(v - lo) / (hi - lo)` as a rational number. -/
def pos (lo hi v : Int) : ℚ := ((v - lo : Int) : ℚ) / ((hi - lo : Int) : ℚ)

/-- Exact distance of the normalised position of `v` to the target `q`. -/
def exactDist (q : ℚ) (lo hi v : Int) : ℚ := |pos lo hi v - q|

/-- The difference of any element and a smaller one is representable in the promoted element
type, so `aMax - aMin` does not overflow.  This can only fail for `int32` and `int64`. -/
def SpreadFits (T : ElemType) (p : Nat → Int) (size : Nat) : Prop :=
  ∀ i, i < size → ∀ j, j < size → p j ≤ p i → T.promote.InRange (p i - p j)

instance (T : ElemType) (p : Nat → Int) (size : Nat) : Decidable (SpreadFits T p size) := by
  unfold SpreadFits; infer_instance

/-- The buffer is not constant: two of its first `size` elements differ. -/
def NonConstant (p : Nat → Int) (size : Nat) : Prop :=
  ∃ i, i < size ∧ ∃ j, j < size ∧ p i ≠ p j

/-- Every one of the first `size` elements is a value of type `T`. -/
def Typed (T : ElemType) (p : Nat → Int) (size : Nat) : Prop :=
  ∀ i, i < size → T.InRange (p i)

instance (p : Nat → Int) (size : Nat) : Decidable (NonConstant p size) := by
  unfold NonConstant; infer_instance

instance (T : ElemType) (p : Nat → Int) (size : Nat) : Decidable (Typed T p size) := by
  unfold Typed; infer_instance

/-- The buffer `p` with `c` added to every element. -/
def translate (p : Nat → Int) (c : Int) : Nat → Int := fun i => p i + c

/-- Every one of the first `size` elements is below `2 ^ 52` in magnitude, so that each
element and each difference of two elements converts to `double` without rounding. -/
def ExactlyConvertible (p : Nat → Int) (size : Nat) : Prop :=
  ∀ i, i < size → |p i| < 2 ^ 52

instance (p : Nat → Int) (size : Nat) : Decidable (ExactlyConvertible p size) := by
  unfold ExactlyConvertible; infer_instance

/-- The least value of the distance `d` over the first `size` elements is attained by a
single value: any two elements of minimal distance are equal. -/
def SingleMinValue (d : Int → ℚ) (p : Nat → Int) (size : Nat) : Prop :=
  ∀ i, i < size → ∀ k, k < size →
    (∀ m, m < size → d (p i) ≤ d (p m)) → (∀ m, m < size → d (p k) ≤ d (p m)) → p i = p k

instance (d : Int → ℚ) (p : Nat → Int) (size : Nat) : Decidable (SingleMinValue d p size) := by
  unfold SingleMinValue; infer_instance

end CImage

/-! ## Pixel formats, data size -/

open PIXELFORMAT in
/-- C8: `PF_UNKNOWN` is 0; the eleven uncompressed tags are exactly those of the gray, RGB
and BGR sections and take the values 1..11 in declaration order; the compressed tags are
exactly `PF_DXT1..PF_DXT5, PF_3DC` with values 128..133; no compressed tag shares its value
with another tag, and a tag is compressed if and only if its value is at least
`PF_DXT1 = 128`. -/
theorem pixelformat_catalog :
    PF_UNKNOWN.val = 0 ∧
    (Finset.univ.filter fun f : PIXELFORMAT => f.isUncompressed) =
      {PF_A8, PF_GRAY8, PF_GRAYU16, PF_GRAYF32, PF_R5G6B5, PF_R8G8B8, PF_R8G8B8A8,
        PF_A8R8G8B8, PF_B8G8R8, PF_B8G8R8A8, PF_A8B8G8R8} ∧
    [PF_A8, PF_GRAY8, PF_GRAYU16, PF_GRAYF32, PF_R5G6B5, PF_R8G8B8, PF_R8G8B8A8,
        PF_A8R8G8B8, PF_B8G8R8, PF_B8G8R8A8, PF_A8B8G8R8].map PIXELFORMAT.val =
      [1, 2, 3, 4, 5, 6, 7, 8, 9, 10, 11] ∧
    (Finset.univ.filter fun f : PIXELFORMAT => f.isCompressed) =
      {PF_DXT1, PF_DXT2, PF_DXT3, PF_DXT4, PF_DXT5, PF_3DC} ∧
    [PF_DXT1, PF_DXT2, PF_DXT3, PF_DXT4, PF_DXT5, PF_3DC].map PIXELFORMAT.val =
      [128, 129, 130, 131, 132, 133] ∧
    (∀ f g : PIXELFORMAT, f.val = g.val → f = g) ∧
    (∀ f g : PIXELFORMAT, f.isCompressed = true → g.isCompressed = false → f.val ≠ g.val) ∧
    (∀ f : PIXELFORMAT, f.isCompressed = true ↔ PF_DXT1.val ≤ f.val) ∧
    PF_DXT1.val = 128 := by
  refine ⟨by decide, by decide, by decide, by decide, by decide, by decide, by decide,
    by decide, by decide⟩

/-- C6, as the claim states it, fails: with `m_lineWidth = m_dataHeight = 65536` (both valid
32 bit values) `GetDataSize()` is 0, not the product `4294967296`. -/
theorem getDataSize_wraps :
    wideImage.WellTyped ∧ wideImage.GetDataSize = 0 ∧
      wideImage.m_lineWidth * wideImage.m_dataHeight = 4294967296 ∧
      wideImage.GetDataSize ≠ wideImage.m_lineWidth * wideImage.m_dataHeight := by
  refine ⟨?_, ?_, ?_, ?_⟩
  · unfold CImage.WellTyped; decide
  · decide
  · decide
  · decide

/-- C6, amended: `GetDataSize()` is the product `m_lineWidth * m_dataHeight` reduced modulo
`2 ^ 32`; it equals the exact product precisely when that product is below `2 ^ 32`. -/
theorem getDataSize_mod (img : CImage) :
    img.GetDataSize = (img.m_lineWidth * img.m_dataHeight) % 2 ^ 32 ∧
    img.GetDataSize < 2 ^ 32 ∧
    (img.GetDataSize = img.m_lineWidth * img.m_dataHeight ↔
      img.m_lineWidth * img.m_dataHeight < 2 ^ 32) := by
  refine ⟨rfl, Nat.mod_lt _ (by norm_num), ?_⟩
  unfold CImage.GetDataSize sizeBits
  constructor
  · intro h
    rw [← h]
    exact Nat.mod_lt _ (by norm_num)
  · intro h
    exact Nat.mod_eq_of_lt h


/-! ## Rounding lemmas -/

theorem log2Fuel_spec (fuel : Nat) : ∀ n, n ≤ fuel → 0 < n →
    2 ^ log2Fuel fuel n ≤ n ∧ n < 2 ^ (log2Fuel fuel n + 1) := by
  induction fuel with
  | zero => intro n h1 h2; omega
  | succ f ih =>
    intro n h1 h2
    unfold log2Fuel
    split_ifs with h
    · constructor <;> simp <;> omega
    · have hn : n / 2 ≤ f := by omega
      have hp : 0 < n / 2 := by omega
      obtain ⟨a, b⟩ := ih (n / 2) hn hp
      constructor
      · rw [pow_succ]; omega
      · rw [pow_succ]; omega

theorem natLog2_spec (n : Nat) (h : 0 < n) :
    2 ^ natLog2 n ≤ n ∧ n < 2 ^ (natLog2 n + 1) :=
  log2Fuel_spec n n le_rfl h

theorem pow2_eq_zpow (k : Int) : pow2 k = (2 : ℚ) ^ k := by
  cases k with
  | ofNat n => simp [pow2]
  | negSucc n => simp [pow2, zpow_negSucc]

theorem pow2_pos (k : Int) : 0 < pow2 k := by
  rw [pow2_eq_zpow]; positivity

theorem abs_eq_natAbs_div (x : ℚ) : |x| = (x.num.natAbs : ℚ) / (x.den : ℚ) := by
  conv_lhs => rw [← Rat.num_div_den x]
  rw [abs_div, Nat.abs_cast, Nat.cast_natAbs, Int.cast_abs]

theorem ilog2_spec (x : ℚ) (hx : x ≠ 0) :
    (2 : ℚ) ^ ilog2 x ≤ |x| ∧ |x| < (2 : ℚ) ^ (ilog2 x + 1) := by
  have ha : 0 < x.num.natAbs := Int.natAbs_pos.mpr (Rat.num_ne_zero.mpr hx)
  have hd : 0 < x.den := x.den_pos
  obtain ⟨a1, a2⟩ := natLog2_spec _ ha
  obtain ⟨d1, d2⟩ := natLog2_spec _ hd
  have habs := abs_eq_natAbs_div x
  unfold ilog2
  simp only [pow2_eq_zpow]
  generalize x.num.natAbs = a at *
  generalize x.den = d at *
  have a1q : (2 : ℚ) ^ (natLog2 a : ℤ) ≤ (a : ℚ) := by
    rw [zpow_natCast]; exact_mod_cast a1
  have a2q : (a : ℚ) < (2 : ℚ) ^ ((natLog2 a : ℤ) + 1) := by
    have : (a : ℚ) < (2 : ℚ) ^ (natLog2 a + 1) := by exact_mod_cast a2
    rwa [← zpow_natCast, Nat.cast_add, Nat.cast_one] at this
  have d1q : (2 : ℚ) ^ (natLog2 d : ℤ) ≤ (d : ℚ) := by
    rw [zpow_natCast]; exact_mod_cast d1
  have d2q : (d : ℚ) < (2 : ℚ) ^ ((natLog2 d : ℤ) + 1) := by
    have : (d : ℚ) < (2 : ℚ) ^ (natLog2 d + 1) := by exact_mod_cast d2
    rwa [← zpow_natCast, Nat.cast_add, Nat.cast_one] at this
  have hdq : (0 : ℚ) < d := by exact_mod_cast hd
  have h2 : (2 : ℚ) ≠ 0 := by norm_num
  generalize (natLog2 a : ℤ) = la at *
  generalize (natLog2 d : ℤ) = ld at *
  have hla : (0 : ℚ) < 2 ^ la := by positivity
  have hld : (0 : ℚ) < 2 ^ ld := by positivity
  -- 2 ^ (la - ld - 1) ≤ |x| < 2 ^ (la - ld + 1)
  have lo : (2 : ℚ) ^ (la - ld - 1) ≤ |x| := by
    rw [habs, le_div_iff₀ hdq]
    have e : (2 : ℚ) ^ (la - ld - 1) = 2 ^ la / 2 ^ (ld + 1) := by
      rw [← zpow_sub₀ h2]; congr 1; ring
    rw [e, div_mul_eq_mul_div, div_le_iff₀ (by positivity)]
    have : (0:ℚ) ≤ 2 ^ la := hla.le
    nlinarith
  have hi : |x| < (2 : ℚ) ^ (la - ld + 1) := by
    rw [habs, div_lt_iff₀ hdq]
    have e : (2 : ℚ) ^ (la - ld + 1) = 2 ^ (la + 1) / 2 ^ ld := by
      rw [← zpow_sub₀ h2]; congr 1; ring
    rw [e, div_mul_eq_mul_div, lt_div_iff₀ hld]
    have : (0:ℚ) < 2 ^ (la + 1) := by positivity
    nlinarith
  split_ifs with h
  · exact ⟨h, hi⟩
  · refine ⟨lo, ?_⟩
    have : la - ld - 1 + 1 = la - ld := by ring
    rw [this]
    exact not_le.mp h

theorem rne_error (m : ℚ) : |(rne m : ℚ) - m| ≤ 1 / 2 := by
  have h1 := Int.floor_le m
  have h2 := Int.lt_floor_add_one m
  unfold rne
  dsimp only
  split_ifs with a b c
  · rw [abs_le]; constructor <;> linarith
  · push_cast; rw [abs_le]; constructor <;> linarith
  · rw [abs_le]; constructor <;> linarith
  · push_cast; rw [abs_le]; constructor <;> linarith

theorem rne_intCast (n : ℤ) : rne (n : ℚ) = n := by
  unfold rne
  simp

theorem fl_zero : fl 0 = 0 := by
  unfold fl rne
  simp

theorem fl_error (x : ℚ) : |fl x - x| ≤ |x| / 2 ^ 53 := by
  by_cases hx : x = 0
  · subst hx; simp [fl_zero]
  obtain ⟨lo, -⟩ := ilog2_spec x hx
  unfold fl
  simp only [pow2_eq_zpow]
  generalize ilog2 x = e at *
  have hs : (0 : ℚ) < 2 ^ (e - 52) := by positivity
  have e1 : (rne (x / 2 ^ (e - 52)) : ℚ) * 2 ^ (e - 52) - x =
      ((rne (x / 2 ^ (e - 52)) : ℚ) - x / 2 ^ (e - 52)) * 2 ^ (e - 52) := by
    field_simp
  rw [e1, abs_mul, abs_of_pos hs]
  have h3 := rne_error (x / 2 ^ (e - 52))
  have e2 : (2 : ℚ) ^ (e - 52) = 2 ^ e / 2 ^ 52 := by
    rw [zpow_sub₀ (by norm_num : (2 : ℚ) ≠ 0)]; norm_num
  have he : (0 : ℚ) < 2 ^ e := by positivity
  calc |(rne (x / 2 ^ (e - 52)) : ℚ) - x / 2 ^ (e - 52)| * 2 ^ (e - 52)
      ≤ 1 / 2 * 2 ^ (e - 52) := by gcongr
    _ = 2 ^ e / 2 ^ 53 := by rw [e2]; ring
    _ ≤ |x| / 2 ^ 53 := by gcongr

theorem fl_eq_zero_iff (x : ℚ) : fl x = 0 ↔ x = 0 := by
  constructor
  · intro h
    by_contra hx
    have := fl_error x
    rw [h, zero_sub, abs_neg] at this
    have hpos : 0 < |x| := abs_pos.mpr hx
    have : |x| * 2 ^ 53 ≤ |x| := by
      rwa [le_div_iff₀ (by positivity)] at this
    nlinarith
  · intro h; subst h; exact fl_zero

theorem fl_intCast (n : ℤ) (h : |n| < 2 ^ 53) : fl (n : ℚ) = n := by
  by_cases hn : n = 0
  · subst hn; simp [fl_zero]
  have hx : (n : ℚ) ≠ 0 := by exact_mod_cast hn
  obtain ⟨lo, hi⟩ := ilog2_spec (n : ℚ) hx
  have hlt : |(n : ℚ)| < 2 ^ 53 := by exact_mod_cast h
  have he : ilog2 (n : ℚ) < 53 := by
    have : (2 : ℚ) ^ ilog2 (n : ℚ) < 2 ^ (53 : ℤ) := by
      calc (2 : ℚ) ^ ilog2 (n : ℚ) ≤ |(n : ℚ)| := lo
        _ < 2 ^ (53 : ℤ) := by exact_mod_cast hlt
    exact (zpow_lt_zpow_iff_right₀ (by norm_num : (1 : ℚ) < 2)).mp this
  unfold fl
  simp only [pow2_eq_zpow]
  generalize ilog2 (n : ℚ) = e at *
  obtain ⟨k, hk⟩ : ∃ k : ℕ, (52 - e) = (k : ℤ) := ⟨(52 - e).toNat, by omega⟩
  have e1 : (2 : ℚ) ^ (e - 52) = 1 / 2 ^ k := by
    have : e - 52 = -(k : ℤ) := by omega
    rw [this, zpow_neg, zpow_natCast]; simp
  rw [e1]
  have e2 : (n : ℚ) / (1 / 2 ^ k) = ((n * 2 ^ k : ℤ) : ℚ) := by
    push_cast; field_simp
  rw [e2, rne_intCast]
  push_cast
  field_simp


/-- The result of `fl` at a nonzero `x` is an integer significand of magnitude between
`2 ^ 52` and `2 ^ 53` scaled by `2 ^ (e - 52)`, where `e` is the binary exponent of `x`. -/
theorem fl_significand (x : ℚ) (hx : x ≠ 0) :
    ∃ m : Int, 2 ^ 52 ≤ |m| ∧ |m| ≤ 2 ^ 53 ∧ fl x = (m : ℚ) * (2 : ℚ) ^ (ilog2 x - 52) := by
  obtain ⟨lo, hi⟩ := ilog2_spec x hx
  refine ⟨rne (x / pow2 (ilog2 x - 52)), ?_, ?_, ?_⟩
  · have herr := rne_error (x / pow2 (ilog2 x - 52))
    rw [pow2_eq_zpow] at herr ⊢
    generalize ilog2 x = e at *
    have hs : (0 : ℚ) < 2 ^ (e - 52) := by positivity
    have e2 : (2 : ℚ) ^ e = 2 ^ 52 * 2 ^ (e - 52) := by
      rw [zpow_sub₀ (by norm_num : (2 : ℚ) ≠ 0)]
      field_simp
      ring
    have hm : (2 : ℚ) ^ 52 ≤ |x / 2 ^ (e - 52)| := by
      rw [abs_div, abs_of_pos hs, le_div_iff₀ hs, ← e2]
      exact lo
    generalize x / 2 ^ (e - 52) = y at *
    generalize rne y = m at *
    have h1 : |y| - |(m : ℚ)| ≤ |y - m| := abs_sub_abs_le_abs_sub y m
    rw [abs_sub_comm] at h1
    have h2 : (2 : ℚ) ^ 52 - 1 / 2 ≤ |(m : ℚ)| := by linarith
    have h3 : ((2 ^ 52 - 1 : Int) : ℚ) < ((|m| : Int) : ℚ) := by
      push_cast
      linarith
    have h4 : (2 ^ 52 - 1 : Int) < |m| := by exact_mod_cast h3
    omega
  · have herr := rne_error (x / pow2 (ilog2 x - 52))
    rw [pow2_eq_zpow] at herr ⊢
    generalize ilog2 x = e at *
    have hs : (0 : ℚ) < 2 ^ (e - 52) := by positivity
    have e2 : (2 : ℚ) ^ (e + 1) = 2 ^ 53 * 2 ^ (e - 52) := by
      rw [zpow_sub₀ (by norm_num : (2 : ℚ) ≠ 0), zpow_add₀ (by norm_num : (2 : ℚ) ≠ 0)]
      field_simp
      ring
    have hm : |x / 2 ^ (e - 52)| < (2 : ℚ) ^ 53 := by
      rw [abs_div, abs_of_pos hs, div_lt_iff₀ hs, ← e2]
      exact hi
    generalize x / 2 ^ (e - 52) = y at *
    generalize rne y = m at *
    have h1 : |(m : ℚ)| - |y| ≤ |(m : ℚ) - y| := abs_sub_abs_le_abs_sub _ _
    have h3 : ((|m| : Int) : ℚ) < ((2 ^ 53 + 1 : Int) : ℚ) := by
      push_cast
      linarith
    have h4 : |m| < (2 ^ 53 + 1 : Int) := by exact_mod_cast h3
    omega
  · unfold fl
    simp only [pow2_eq_zpow]

namespace CImage

/-! ## Loop invariants -/

theorem scan_fold_spec (p : Nat → Int) (n : Nat) :
    (∀ i, i < n + 1 →
        ((List.range' 1 n).foldl (scanStep p) (p 0, p 0)).1 ≤ p i ∧
        p i ≤ ((List.range' 1 n).foldl (scanStep p) (p 0, p 0)).2) ∧
    (∃ i, i < n + 1 ∧ p i = ((List.range' 1 n).foldl (scanStep p) (p 0, p 0)).1) ∧
    (∃ j, j < n + 1 ∧ p j = ((List.range' 1 n).foldl (scanStep p) (p 0, p 0)).2) := by
  induction n with
  | zero =>
    simp
  | succ n ih =>
    rw [List.range'_concat, List.foldl_append]
    simp only [List.foldl_cons, List.foldl_nil, Nat.mul_one]
    obtain ⟨hb, ⟨i, hi, hmin⟩, ⟨j, hj, hmax⟩⟩ := ih
    generalize (List.range' 1 n).foldl (scanStep p) (p 0, p 0) = s at *
    have h1n : 1 + 1 * n = n + 1 := by omega
    rw [h1n]
    refine ⟨?_, ?_, ?_⟩
    · intro k hk
      unfold scanStep
      by_cases hkn : k = n + 1
      · subst hkn
        dsimp only
        constructor <;> split_ifs <;> omega
      · have hk' : k < n + 1 := by omega
        have := hb k hk'
        dsimp only
        constructor <;> split_ifs <;> omega
    · unfold scanStep
      dsimp only
      split_ifs with h
      · exact ⟨n + 1, by omega, rfl⟩
      · exact ⟨i, by omega, hmin⟩
    · unfold scanStep
      dsimp only
      split_ifs with h
      · exact ⟨n + 1, by omega, rfl⟩
      · exact ⟨j, by omega, hmax⟩

theorem scanMinMax_spec (p : Nat → Int) (size : Nat) (h : 0 < size) :
    (∀ i, i < size → (scanMinMax p size).1 ≤ p i ∧ p i ≤ (scanMinMax p size).2) ∧
    (∃ i, i < size ∧ p i = (scanMinMax p size).1) ∧
    (∃ j, j < size ∧ p j = (scanMinMax p size).2) := by
  have := scan_fold_spec p (size - 1)
  have hs : size - 1 + 1 = size := by omega
  rw [hs] at this
  exact this


theorem select_min_proj (p : Nat → Int) (aMin : Int) (range : ℚ) (l : List Nat) :
    ∀ s : PState,
      ((l.foldl (selectStep p aMin range) s).min,
        (l.foldl (selectStep p aMin range) s).closestMinP) =
      l.foldl (trackStep p (minPOf aMin range)) (s.min, s.closestMinP) := by
  induction l with
  | nil => intro s; rfl
  | cons i l ih =>
    intro s
    rw [List.foldl_cons, List.foldl_cons, ih]
    congr 1
    unfold selectStep trackStep
    dsimp only
    split_ifs <;> rfl

theorem select_max_proj (p : Nat → Int) (aMin : Int) (range : ℚ) (l : List Nat) :
    ∀ s : PState,
      ((l.foldl (selectStep p aMin range) s).max,
        (l.foldl (selectStep p aMin range) s).closestMaxP) =
      l.foldl (trackStep p (maxPOf aMin range)) (s.max, s.closestMaxP) := by
  induction l with
  | nil => intro s; rfl
  | cons i l ih =>
    intro s
    rw [List.foldl_cons, List.foldl_cons, ih]
    congr 1
    unfold selectStep trackStep
    dsimp only
    split_ifs <;> rfl

/-- Invariant of a single tracker after the indices below `n`. -/
theorem track_fold_spec (p : Nat → Int) (d : Int → ℚ) (o0 : Int) (c0 : ℚ) (n : Nat) :
    ((List.range n).foldl (trackStep p d) (o0, c0) = (o0, c0) ∧
        ∀ k, k < n → c0 ≤ d (p k)) ∨
    ∃ i, i < n ∧ (List.range n).foldl (trackStep p d) (o0, c0) = (p i, d (p i)) ∧
      d (p i) < c0 ∧ (∀ k, k < n → d (p i) ≤ d (p k)) ∧ (∀ k, k < i → d (p i) < d (p k)) := by
  induction n with
  | zero => left; simp
  | succ n ih =>
    rw [List.range_succ, List.foldl_append]
    simp only [List.foldl_cons, List.foldl_nil]
    rcases ih with ⟨he, hall⟩ | ⟨i, hi, he, hlt, hmin, hfirst⟩
    · rw [he]
      unfold trackStep
      dsimp only
      split_ifs with h
      · right
        refine ⟨n, by omega, rfl, h, ?_, ?_⟩
        · intro k hk
          by_cases hkn : k = n
          · subst hkn; exact le_rfl
          · exact le_of_lt (lt_of_lt_of_le h (hall k (by omega)))
        · intro k hk
          exact lt_of_lt_of_le h (hall k hk)
      · left
        refine ⟨rfl, ?_⟩
        intro k hk
        by_cases hkn : k = n
        · subst hkn; exact not_lt.mp h
        · exact hall k (by omega)
    · rw [he]
      unfold trackStep
      dsimp only
      right
      split_ifs with h
      · refine ⟨n, by omega, rfl, lt_trans h hlt, ?_, ?_⟩
        · intro k hk
          by_cases hkn : k = n
          · subst hkn; exact le_rfl
          · exact le_of_lt (lt_of_lt_of_le h (hmin k (by omega)))
        · intro k hk
          exact lt_of_lt_of_le h (hmin k hk)
      · refine ⟨i, by omega, rfl, hlt, ?_, hfirst⟩
        intro k hk
        by_cases hkn : k = n
        · subst hkn; exact not_lt.mp h
        · exact hmin k (by omega)

/-- A tracker that meets some distance below its start value ends on the element at the
least index of minimal distance. -/
theorem track_fold_first (p : Nat → Int) (d : Int → ℚ) (o0 : Int) (c0 : ℚ) (n : Nat)
    (h : ∃ k, k < n ∧ d (p k) < c0) :
    ∃ i, FirstArgmin (fun k => d (p k)) n i ∧
      (List.range n).foldl (trackStep p d) (o0, c0) = (p i, d (p i)) := by
  rcases track_fold_spec p d o0 c0 n with ⟨-, hall⟩ | ⟨i, hi, he, -, hmin, hfirst⟩
  · obtain ⟨k, hk, hlt⟩ := h
    exact absurd (hall k hk) (not_le.mpr hlt)
  · exact ⟨i, ⟨hi, hmin, hfirst⟩, he⟩

theorem firstArgmin_unique (d : Nat → ℚ) (n i j : Nat)
    (hi : FirstArgmin d n i) (hj : FirstArgmin d n j) : i = j := by
  obtain ⟨hi1, hi2, hi3⟩ := hi
  obtain ⟨hj1, hj2, hj3⟩ := hj
  rcases Nat.lt_trichotomy i j with h | h | h
  · exact absurd (hj3 i h) (not_lt.mpr (hi2 j hj1))
  · exact h
  · exact absurd (hi3 j h) (not_lt.mpr (hj2 i hi1))


theorem percentileOf_self (aMin : Int) (range : ℚ) : percentileOf aMin range aMin = 0 := by
  unfold percentileOf
  simp [fl_zero]

theorem minPOf_self_lt (aMin : Int) (range : ℚ) : minPOf aMin range aMin < sentinel := by
  unfold minPOf
  rw [percentileOf_self]
  decide!

theorem maxPOf_self_lt (aMin : Int) (range : ℚ) : maxPOf aMin range aMin < sentinel := by
  unfold maxPOf
  rw [percentileOf_self]
  decide!

theorem find_of_size_zero (T : ElemType) (p : Nat → Int) (out0 : Int × Int) :
    findMinMaxPercentile T p 0 out0 = (0, 0) := by
  simp [findMinMaxPercentile]

theorem find_of_range_zero (T : ElemType) (p : Nat → Int) (size : Nat) (out0 : Int × Int)
    (h : rangeOf T (scanMinMax p size).1 (scanMinMax p size).2 = 0) :
    findMinMaxPercentile T p size out0 = (0, 0) := by
  unfold findMinMaxPercentile
  split_ifs with h0
  · rfl
  · simp only [h, if_true]

/-- In the non-degenerate branch the result is the pair of elements at the least indices of
minimal computed distance to `0.1` and to `0.9`. -/
theorem find_select (T : ElemType) (p : Nat → Int) (size : Nat) (out0 : Int × Int)
    (hsize : 0 < size)
    (hr : rangeOf T (scanMinMax p size).1 (scanMinMax p size).2 ≠ 0) :
    ∃ i j,
      FirstArgmin (fun k => minPOf (scanMinMax p size).1
        (rangeOf T (scanMinMax p size).1 (scanMinMax p size).2) (p k)) size i ∧
      FirstArgmin (fun k => maxPOf (scanMinMax p size).1
        (rangeOf T (scanMinMax p size).1 (scanMinMax p size).2) (p k)) size j ∧
      findMinMaxPercentile T p size out0 = (p i, p j) := by
  obtain ⟨-, ⟨k, hk, hpk⟩, -⟩ := scanMinMax_spec p size hsize
  unfold findMinMaxPercentile
  rw [if_neg (by omega : ¬ size = 0)]
  simp only [hr, if_false]
  generalize hmm : scanMinMax p size = mm at *
  generalize hrange : rangeOf T mm.1 mm.2 = range at *
  obtain ⟨i, hi, hie⟩ := track_fold_first p (minPOf mm.1 range) out0.1 sentinel size
    ⟨k, hk, by rw [hpk]; exact minPOf_self_lt _ _⟩
  obtain ⟨j, hj, hje⟩ := track_fold_first p (maxPOf mm.1 range) out0.2 sentinel size
    ⟨k, hk, by rw [hpk]; exact maxPOf_self_lt _ _⟩
  refine ⟨i, j, hi, hj, ?_⟩
  have h1 := select_min_proj p mm.1 range (List.range size)
    { min := out0.1, max := out0.2, closestMinP := sentinel, closestMaxP := sentinel }
  have h2 := select_max_proj p mm.1 range (List.range size)
    { min := out0.1, max := out0.2, closestMinP := sentinel, closestMaxP := sentinel }
  dsimp only at h1 h2
  rw [hie] at h1
  rw [hje] at h2
  unfold selectLoop
  have a := congrArg Prod.fst h1
  have b := congrArg Prod.fst h2
  dsimp only at a b
  rw [a, b]


theorem wrap_zero (T : ElemType) : T.wrap 0 = 0 := by
  cases T <;> decide

theorem wrap_spread_ne_zero (T : ElemType) (lo hi : Int) (hlo : T.InRange lo)
    (hhi : T.InRange hi) (h : lo < hi) : T.promote.wrap (hi - lo) ≠ 0 := by
  unfold ElemType.InRange at hlo hhi
  cases T <;>
    simp only [ElemType.minVal, ElemType.maxVal, ElemType.isSigned, ElemType.bits,
      ElemType.promote, ElemType.wrap, if_true, if_false, Bool.false_eq_true] at hlo hhi ⊢ <;>
    norm_num at hlo hhi ⊢ <;> omega

theorem rangeOf_self (T : ElemType) (c : Int) : rangeOf T c c = 0 := by
  unfold rangeOf toDouble
  rw [sub_self, wrap_zero]
  simp [fl_zero]

theorem rangeOf_ne_zero (T : ElemType) (lo hi : Int) (hlo : T.InRange lo)
    (hhi : T.InRange hi) (h : lo < hi) : rangeOf T lo hi ≠ 0 := by
  unfold rangeOf toDouble
  rw [Ne, fl_eq_zero_iff]
  exact_mod_cast wrap_spread_ne_zero T lo hi hlo hhi h

theorem scan_lt_of_nonConstant (p : Nat → Int) (size : Nat) (h : NonConstant p size) :
    (scanMinMax p size).1 < (scanMinMax p size).2 := by
  obtain ⟨i, hi, j, hj, hne⟩ := h
  obtain ⟨hb, -, -⟩ := scanMinMax_spec p size (by omega)
  have a := hb i hi
  have b := hb j hj
  omega

theorem scan_inRange (T : ElemType) (p : Nat → Int) (size : Nat) (hs : 0 < size)
    (hT : Typed T p size) :
    T.InRange (scanMinMax p size).1 ∧ T.InRange (scanMinMax p size).2 := by
  obtain ⟨-, ⟨i, hi, hmin⟩, ⟨j, hj, hmax⟩⟩ := scanMinMax_spec p size hs
  rw [← hmin, ← hmax]
  exact ⟨hT i hi, hT j hj⟩

theorem nonConstant_pos (p : Nat → Int) (size : Nat) (h : NonConstant p size) : 0 < size := by
  obtain ⟨i, hi, -⟩ := h
  omega

theorem scanTraced_fst (p : Nat → Int) (l : List Nat) :
    ∀ s : (Int × Int) × List Nat,
      (l.foldl (scanStepTraced p) s).1 = l.foldl (scanStep p) s.1 := by
  induction l with
  | nil => intro s; rfl
  | cons i l ih =>
    intro s
    rw [List.foldl_cons, List.foldl_cons, ih]
    congr 1
    unfold scanStepTraced scanStep
    dsimp only
    split_ifs <;> rfl

theorem selectTraced_fst (p : Nat → Int) (aMin : Int) (range : ℚ) (l : List Nat) :
    ∀ s : PState × List Nat,
      (l.foldl (selectStepTraced p aMin range) s).1 = l.foldl (selectStep p aMin range) s.1 := by
  induction l with
  | nil => intro s; rfl
  | cons i l ih =>
    intro s
    rw [List.foldl_cons, List.foldl_cons, ih]
    congr 1
    unfold selectStepTraced selectStep
    dsimp only
    split_ifs <;> rfl

theorem traced_fst (T : ElemType) (p : Nat → Int) (size : Nat) (out0 : Int × Int) :
    (findMinMaxPercentileTraced T p size out0).1 = findMinMaxPercentile T p size out0 := by
  unfold findMinMaxPercentileTraced findMinMaxPercentile
  have h1 : (scanMinMaxTraced p size).1 = scanMinMax p size := by
    unfold scanMinMaxTraced scanMinMax
    rw [scanTraced_fst]
  by_cases a : size = 0
  · simp [a]
  · simp only [a, if_false]
    rw [h1]
    by_cases b : rangeOf T (scanMinMax p size).1 (scanMinMax p size).2 = 0
    · simp [b]
    · simp only [b, if_false]
      rw [selectTraced_fst]
      rfl


/-! ## Accuracy of the computed distances -/

/-- The computed distance `|fl (fl x - fl q)|` differs from the exact distance `|x - q|` by
at most `2 ^ -51` when `x` and `q` lie in `[0, 1]`. -/
theorem computed_dist_close (x q : ℚ) (hx0 : 0 ≤ x) (hx1 : x ≤ 1) (hq0 : 0 ≤ q)
    (hq1 : q ≤ 1) : abs (abs (fl (fl x - fl q)) - abs (x - q)) ≤ 1 / 2 ^ 51 := by
  have e1 := fl_error x
  have e2 := fl_error q
  have e3 := fl_error (fl x - fl q)
  rw [abs_of_nonneg hx0] at e1
  rw [abs_of_nonneg hq0] at e2
  have b1 : |fl x - x| ≤ 1 / 2 ^ 53 := by
    refine le_trans e1 ?_
    gcongr
  have b2 : |fl q - q| ≤ 1 / 2 ^ 53 := by
    refine le_trans e2 ?_
    gcongr
  rw [abs_le] at b1 b2
  have hy : |fl x - fl q| ≤ 2 := by
    rw [abs_le]
    constructor <;> norm_num at b1 b2 ⊢ <;> linarith
  have b3 : |fl (fl x - fl q) - (fl x - fl q)| ≤ 2 / 2 ^ 53 := by
    refine le_trans e3 ?_
    gcongr
  rw [abs_le] at b3
  refine le_trans (abs_abs_sub_abs_le_abs_sub _ _) ?_
  rw [abs_le]
  constructor <;> norm_num at b1 b2 b3 ⊢ <;> linarith

theorem wrap_of_inRange (T : ElemType) (x : Int) (h : T.InRange x) : T.wrap x = x := by
  unfold ElemType.InRange at h
  cases T <;>
    simp only [ElemType.minVal, ElemType.maxVal, ElemType.isSigned, ElemType.bits,
      ElemType.wrap, if_true, if_false, Bool.false_eq_true] at h ⊢ <;>
    norm_num at h ⊢ <;> omega

theorem inRange_abs_le (T : ElemType) (hb : T.bits ≤ 32) (x : Int) (h : T.InRange x) :
    |x| ≤ 2 ^ 32 := by
  unfold ElemType.InRange at h
  rw [abs_le]
  cases T <;>
    simp only [ElemType.minVal, ElemType.maxVal, ElemType.isSigned, ElemType.bits,
      if_true, if_false, Bool.false_eq_true] at h hb ⊢ <;>
    norm_num at h hb ⊢ <;> omega

theorem promote_bits_le (T : ElemType) (hb : T.bits ≤ 32) : T.promote.bits ≤ 32 := by
  cases T <;> simp [ElemType.promote, ElemType.bits] at hb ⊢

theorem rangeOf_exact (T : ElemType) (hb : T.bits ≤ 32) (lo hi : Int)
    (hfit : T.promote.InRange (hi - lo)) : rangeOf T lo hi = ((hi - lo : Int) : ℚ) := by
  unfold rangeOf toDouble
  rw [wrap_of_inRange _ _ hfit]
  apply fl_intCast
  have := inRange_abs_le T.promote (promote_bits_le T hb) _ hfit
  exact lt_of_le_of_lt this (by norm_num)

theorem percentileOf_exact (lo v : Int) (range : ℚ) (hlo : |lo| ≤ 2 ^ 32)
    (hv : |v| ≤ 2 ^ 32) :
    percentileOf lo range v = fl (((v - lo : Int) : ℚ) / range) := by
  unfold percentileOf toDouble
  rw [fl_intCast v (lt_of_le_of_lt hv (by norm_num)),
    fl_intCast lo (lt_of_le_of_lt hlo (by norm_num))]
  have e : (v : ℚ) - (lo : ℚ) = ((v - lo : Int) : ℚ) := by push_cast; ring
  rw [e, fl_intCast]
  rw [abs_le] at hlo hv
  rw [abs_lt]
  constructor <;> omega

theorem pos_nonneg (lo hi v : Int) (h1 : lo ≤ v) (h2 : lo < hi) : 0 ≤ pos lo hi v := by
  unfold pos
  apply div_nonneg
  · exact_mod_cast (by omega : (0 : Int) ≤ v - lo)
  · exact_mod_cast (by omega : (0 : Int) ≤ hi - lo)

theorem pos_le_one (lo hi v : Int) (h1 : v ≤ hi) (h2 : lo < hi) : pos lo hi v ≤ 1 := by
  unfold pos
  rw [div_le_one (by exact_mod_cast (by omega : (0 : Int) < hi - lo))]
  exact_mod_cast (by omega : v - lo ≤ hi - lo)

/-- Two exact distances to a target `c / 10` that differ, differ by at least `1 / (10 r)`. -/
theorem exactDist_gap (c lo hi v w : Int) (h : lo < hi)
    (hlt : exactDist (c / 10) lo hi v < exactDist (c / 10) lo hi w) :
    exactDist (c / 10) lo hi v + 1 / (10 * ((hi - lo : Int) : ℚ)) ≤
      exactDist (c / 10) lo hi w := by
  have hr : (0 : ℚ) < ((hi - lo : Int) : ℚ) := by exact_mod_cast (by omega : (0 : Int) < hi - lo)
  have key : ∀ u : Int, exactDist (c / 10) lo hi u =
      ((|10 * (u - lo) - c * (hi - lo)| : Int) : ℚ) / (10 * ((hi - lo : Int) : ℚ)) := by
    intro u
    unfold exactDist pos
    have : ((u - lo : Int) : ℚ) / ((hi - lo : Int) : ℚ) - (c : ℚ) / 10 =
        ((10 * (u - lo) - c * (hi - lo) : Int) : ℚ) / (10 * ((hi - lo : Int) : ℚ)) := by
      have hne : (hi : ℚ) - (lo : ℚ) ≠ 0 := by
        have := hr.ne'
        push_cast at this
        exact this
      push_cast
      field_simp
      ring
    rw [this, abs_div, abs_of_pos (by positivity : (0 : ℚ) < 10 * ((hi - lo : Int) : ℚ)),
      Int.cast_abs]
  rw [key v, key w] at hlt ⊢
  rw [div_lt_div_iff_of_pos_right (by positivity)] at hlt
  rw [← add_div, div_le_div_iff_of_pos_right (by positivity)]
  have : |10 * (v - lo) - c * (hi - lo)| < |10 * (w - lo) - c * (hi - lo)| := by
    exact_mod_cast hlt
  exact_mod_cast (by omega : |10 * (v - lo) - c * (hi - lo)| + 1 ≤ |10 * (w - lo) - c * (hi - lo)|)

/-- A strictly smaller exact distance gives a strictly smaller computed distance. -/
theorem computed_lt_of_exact_lt (c lo hi v w : Int) (hc0 : 0 ≤ c) (hc1 : c ≤ 10)
    (h : lo < hi) (hr : hi - lo ≤ 2 ^ 32)
    (hv1 : lo ≤ v) (hv2 : v ≤ hi) (hw1 : lo ≤ w) (hw2 : w ≤ hi)
    (hlt : exactDist (c / 10) lo hi v < exactDist (c / 10) lo hi w) :
    |fl (fl (pos lo hi v) - fl (c / 10))| < |fl (fl (pos lo hi w) - fl (c / 10))| := by
  have hq0 : (0 : ℚ) ≤ (c : ℚ) / 10 := by
    apply div_nonneg
    · exact_mod_cast hc0
    · norm_num
  have hq1 : (c : ℚ) / 10 ≤ 1 := by
    rw [div_le_one (by norm_num)]
    exact_mod_cast hc1
  have cv := computed_dist_close (pos lo hi v) (c / 10) (pos_nonneg lo hi v hv1 h)
    (pos_le_one lo hi v hv2 h) hq0 hq1
  have cw := computed_dist_close (pos lo hi w) (c / 10) (pos_nonneg lo hi w hw1 h)
    (pos_le_one lo hi w hw2 h) hq0 hq1
  have gap := exactDist_gap c lo hi v w h hlt
  unfold exactDist at gap
  rw [abs_le] at cv cw
  have hr0 : (0 : ℚ) < ((hi - lo : Int) : ℚ) := by exact_mod_cast (by omega : (0 : Int) < hi - lo)
  have hrq : ((hi - lo : Int) : ℚ) ≤ 2 ^ 32 := by exact_mod_cast hr
  have hbig : (1 : ℚ) / 2 ^ 50 < 1 / (10 * ((hi - lo : Int) : ℚ)) := by
    rw [div_lt_div_iff₀ (by positivity) (by positivity)]
    norm_num at hrq ⊢
    linarith
  generalize 1 / (10 * ((hi - lo : Int) : ℚ)) = g at gap hbig
  generalize |fl (fl (pos lo hi v) - fl (c / 10))| = dv at cv ⊢
  generalize |fl (fl (pos lo hi w) - fl (c / 10))| = dw at cw ⊢
  generalize |pos lo hi v - c / 10| = ev at cv gap
  generalize |pos lo hi w - c / 10| = ew at cw gap
  norm_num at cv cw hbig
  linarith

theorem scan_eq_of_isMin_isMax (p : Nat → Int) (size : Nat) (lo hi : Int)
    (hlo : IsMin p size lo) (hhi : IsMax p size hi) : scanMinMax p size = (lo, hi) := by
  obtain ⟨⟨i, hi1, hi2⟩, hlb⟩ := hlo
  obtain ⟨⟨j, hj1, hj2⟩, hub⟩ := hhi
  obtain ⟨hb, ⟨a, ha, hmin⟩, ⟨b, hb', hmax⟩⟩ := scanMinMax_spec p size (by omega)
  have h1 := (hb i hi1).1
  have h2 := hlb a ha
  have h3 := (hb j hj1).2
  have h4 := hub b hb'
  apply Prod.ext <;> dsimp only <;> omega

theorem minPOf_exact (lo hi v : Int) (hlo : |lo| ≤ 2 ^ 32) (hv : |v| ≤ 2 ^ 32) :
    minPOf lo ((hi - lo : Int) : ℚ) v = |fl (fl (pos lo hi v) - fl (((1 : Int) : ℚ) / 10))| := by
  unfold minPOf
  rw [percentileOf_exact lo v _ hlo hv]
  simp [pos, lit01]

theorem maxPOf_exact (lo hi v : Int) (hlo : |lo| ≤ 2 ^ 32) (hv : |v| ≤ 2 ^ 32) :
    maxPOf lo ((hi - lo : Int) : ℚ) v = |fl (fl (pos lo hi v) - fl (((9 : Int) : ℚ) / 10))| := by
  unfold maxPOf
  rw [percentileOf_exact lo v _ hlo hv]
  simp [pos, lit09]

/-- For element types of at most 32 bits whose spread does not overflow, the result is the
pair of elements at the least indices of minimal computed distance, and these elements also
minimise the exact distances to `1/10` and `9/10`. -/
theorem nearest_core (T : ElemType) (p : Nat → Int) (size : Nat) (out0 : Int × Int)
    (hb : T.bits ≤ 32) (hT : Typed T p size) (hf : SpreadFits T p size)
    (hnc : NonConstant p size) (lo hi : Int) (hlo : IsMin p size lo) (hhi : IsMax p size hi) :
    ∃ i j, findMinMaxPercentile T p size out0 = (p i, p j) ∧
      FirstArgmin (fun k => minPOf lo ((hi - lo : Int) : ℚ) (p k)) size i ∧
      FirstArgmin (fun k => maxPOf lo ((hi - lo : Int) : ℚ) (p k)) size j ∧
      (∀ k, k < size → exactDist (1 / 10) lo hi (p i) ≤ exactDist (1 / 10) lo hi (p k)) ∧
      (∀ k, k < size → exactDist (9 / 10) lo hi (p j) ≤ exactDist (9 / 10) lo hi (p k)) := by
  have hs := nonConstant_pos p size hnc
  have hscan := scan_eq_of_isMin_isMax p size lo hi hlo hhi
  have hlt : lo < hi := by
    have := scan_lt_of_nonConstant p size hnc
    rw [hscan] at this
    exact this
  obtain ⟨⟨a, ha1, ha2⟩, hlb⟩ := hlo
  obtain ⟨⟨b, hb1, hb2⟩, hub⟩ := hhi
  have hfit : T.promote.InRange (hi - lo) := by
    have := hf b hb1 a ha1 (by rw [ha2, hb2]; exact le_of_lt hlt)
    rwa [ha2, hb2] at this
  have hrange := rangeOf_exact T hb lo hi hfit
  have hr32 : hi - lo ≤ 2 ^ 32 :=
    (abs_le.mp (inRange_abs_le T.promote (promote_bits_le T hb) _ hfit)).2
  have hmag : ∀ k, k < size → |p k| ≤ 2 ^ 32 := fun k hk =>
    inRange_abs_le T hb _ (hT k hk)
  have hlomag : |lo| ≤ 2 ^ 32 := by rw [← ha2]; exact hmag a ha1
  have hr : rangeOf T (scanMinMax p size).1 (scanMinMax p size).2 ≠ 0 := by
    rw [hscan]
    dsimp only
    rw [hrange]
    exact_mod_cast (by omega : hi - lo ≠ 0)
  obtain ⟨i, j, hi', hj', he⟩ := find_select T p size out0 hs hr
  rw [hscan] at hi' hj'
  dsimp only at hi' hj'
  rw [hrange] at hi' hj'
  refine ⟨i, j, he, hi', hj', ?_, ?_⟩
  · intro k hk
    by_contra hcon
    rw [not_le] at hcon
    have h1 : (1 : ℚ) / 10 = ((1 : Int) : ℚ) / 10 := by norm_num
    rw [h1] at hcon
    have := computed_lt_of_exact_lt 1 lo hi (p k) (p i) (by norm_num) (by norm_num) hlt hr32
      (hlb k hk) (hub k hk) (hlb i hi'.1) (hub i hi'.1) hcon
    rw [← minPOf_exact lo hi (p k) hlomag (hmag k hk),
      ← minPOf_exact lo hi (p i) hlomag (hmag i hi'.1)] at this
    exact absurd (hi'.2.1 k hk) (not_le.mpr this)
  · intro k hk
    by_contra hcon
    rw [not_le] at hcon
    have h1 : (9 : ℚ) / 10 = ((9 : Int) : ℚ) / 10 := by norm_num
    rw [h1] at hcon
    have := computed_lt_of_exact_lt 9 lo hi (p k) (p j) (by norm_num) (by norm_num) hlt hr32
      (hlb k hk) (hub k hk) (hlb j hj'.1) (hub j hj'.1) hcon
    rw [← maxPOf_exact lo hi (p k) hlomag (hmag k hk),
      ← maxPOf_exact lo hi (p j) hlomag (hmag j hj'.1)] at this
    exact absurd (hj'.2.1 k hk) (not_le.mpr this)

theorem scan_isMin_isMax (p : Nat → Int) (size : Nat) (hs : 0 < size) :
    IsMin p size (scanMinMax p size).1 ∧ IsMax p size (scanMinMax p size).2 := by
  obtain ⟨hb, hmin, hmax⟩ := scanMinMax_spec p size hs
  exact ⟨⟨hmin, fun i hi => (hb i hi).1⟩, ⟨hmax, fun i hi => (hb i hi).2⟩⟩

theorem pos_lo (lo hi : Int) : pos lo hi lo = 0 := by
  simp [pos]

theorem pos_hi (lo hi : Int) (h : lo < hi) : pos lo hi hi = 1 := by
  unfold pos
  apply div_self
  exact_mod_cast (by omega : hi - lo ≠ 0)

/-- The result does not depend on what `*min` and `*max` held before the call. -/
theorem find_indep (T : ElemType) (p : Nat → Int) (size : Nat) (out0 out1 : Int × Int) :
    findMinMaxPercentile T p size out0 = findMinMaxPercentile T p size out1 := by
  by_cases hs : size = 0
  · subst hs
    rw [find_of_size_zero, find_of_size_zero]
  by_cases hr : rangeOf T (scanMinMax p size).1 (scanMinMax p size).2 = 0
  · rw [find_of_range_zero T p size out0 hr, find_of_range_zero T p size out1 hr]
  obtain ⟨i, j, hi, hj, he⟩ := find_select T p size out0 (by omega) hr
  obtain ⟨i', j', hi', hj', he'⟩ := find_select T p size out1 (by omega) hr
  rw [he, he', firstArgmin_unique _ _ _ _ hi hi', firstArgmin_unique _ _ _ _ hj hj']

/-- When the buffer holds `aMin`, both smallest distances end below the start value. -/
theorem select_closest_lt (p : Nat → Int) (size : Nat) (aMin : Int) (range : ℚ)
    (out0 : Int × Int) (h : ∃ k, k < size ∧ p k = aMin) :
    (selectLoop p size aMin range out0).closestMinP < sentinel ∧
    (selectLoop p size aMin range out0).closestMaxP < sentinel := by
  obtain ⟨k, hk, hpk⟩ := h
  obtain ⟨i, hi, hie⟩ := track_fold_first p (minPOf aMin range) out0.1 sentinel size
    ⟨k, hk, by rw [hpk]; exact minPOf_self_lt _ _⟩
  obtain ⟨j, hj, hje⟩ := track_fold_first p (maxPOf aMin range) out0.2 sentinel size
    ⟨k, hk, by rw [hpk]; exact maxPOf_self_lt _ _⟩
  have h1 := select_min_proj p aMin range (List.range size)
    { min := out0.1, max := out0.2, closestMinP := sentinel, closestMaxP := sentinel }
  have h2 := select_max_proj p aMin range (List.range size)
    { min := out0.1, max := out0.2, closestMinP := sentinel, closestMaxP := sentinel }
  dsimp only at h1 h2
  rw [hie] at h1
  rw [hje] at h2
  have a := congrArg Prod.snd h1
  have b := congrArg Prod.snd h2
  dsimp only at a b
  unfold selectLoop
  rw [a, b]
  constructor
  · have := hi.2.1 k hk
    dsimp only at this
    rw [hpk] at this
    exact lt_of_le_of_lt this (minPOf_self_lt _ _)
  · have := hj.2.1 k hk
    dsimp only at this
    rw [hpk] at this
    exact lt_of_le_of_lt this (maxPOf_self_lt _ _)

/-! ## Facts about the ramp `0..99`, by evaluation -/

theorem ramp_min_computed :
    ∀ n : Nat, n < 100 → minPOf 0 99 (Int.ofNat n) ≤ minPOf 0 99 10 → Int.ofNat n = 10 := by
  decide!

theorem ramp_max_computed :
    ∀ n : Nat, n < 100 → maxPOf 0 99 (Int.ofNat n) ≤ maxPOf 0 99 89 → Int.ofNat n = 89 := by
  decide!

theorem ramp_min_exact :
    ∀ n : Nat, n < 100 → exactDist (1 / 10) 0 99 10 ≤ exactDist (1 / 10) 0 99 (Int.ofNat n) := by
  decide!

theorem ramp_max_exact :
    ∀ n : Nat, n < 100 → exactDist (9 / 10) 0 99 89 ≤ exactDist (9 / 10) 0 99 (Int.ofNat n) := by
  decide!

theorem ramp_range (T : ElemType) : rangeOf T 0 99 = 99 := by
  cases T <;> decide!

theorem mem_contents (p : Nat → Int) (size : Nat) (v : Int) :
    v ∈ contents p size ↔ ∃ k, k < size ∧ p k = v := by
  simp [contents]

/-! ## Empty buffer -/

/-- C5: with `size == 0` the result is `(0, 0)` and the list of buffer reads is empty. -/
theorem empty_buffer (T : ElemType) (p : Nat → Int) (out0 : Int × Int) :
    findMinMaxPercentile T p 0 out0 = (0, 0) ∧
    findMinMaxPercentileTraced T p 0 out0 = ((0, 0), []) := by
  constructor
  · simp [findMinMaxPercentile]
  · simp [findMinMaxPercentileTraced]

/-! ## The value of `range` -/

/-- C7 fails on the code: for the `int32` buffer `[-2147483648, 2147483647]` the first loop
finds `aMin = -2147483648`, `aMax = 2147483647`, whose exact difference is `4294967295`, but
`aMax - aMin` is evaluated in `int32` before the conversion to `double` and `range` is `-1`;
the call then returns `(-2147483648, -2147483648)`. -/
theorem range_overflow_int32 :
    Typed .int32 extremesBuf 2 ∧
    scanMinMax extremesBuf 2 = (-2147483648, 2147483647) ∧
    rangeOf .int32 (scanMinMax extremesBuf 2).1 (scanMinMax extremesBuf 2).2 = -1 ∧
    (((scanMinMax extremesBuf 2).2 - (scanMinMax extremesBuf 2).1 : Int) : ℚ) = 4294967295 ∧
    findMinMaxPercentile .int32 extremesBuf 2 (0, 0) = (-2147483648, -2147483648) := by
  refine ⟨by decide, by decide!, by decide!, by decide!, by decide!⟩

/-! ## Sensitivity to the order of the samples -/

/-- C9: the `uint16` buffers `[0, 2, 10]` and `[2, 0, 10]` hold the same values, the values
`0` and `2` have the same computed distance to `0.1`, and the results differ: `(0, 10)` for
the first buffer, `(2, 10)` for the second, whatever `*min`, `*max` held before. -/
theorem order_sensitive :
    (contents tieBufA 3).Perm (contents tieBufB 3) ∧
    Typed .uint16 tieBufA 3 ∧ Typed .uint16 tieBufB 3 ∧
    minPOf 0 (rangeOf .uint16 0 10) 0 = minPOf 0 (rangeOf .uint16 0 10) 2 ∧
    ∀ out0 out1 : Int × Int,
      findMinMaxPercentile .uint16 tieBufA 3 out0 = (0, 10) ∧
      findMinMaxPercentile .uint16 tieBufB 3 out1 = (2, 10) ∧
      findMinMaxPercentile .uint16 tieBufA 3 out0 ≠
        findMinMaxPercentile .uint16 tieBufB 3 out1 := by
  refine ⟨by decide, by decide, by decide, by decide!, ?_⟩
  intro out0 out1
  rw [find_indep .uint16 tieBufA 3 out0 (0, 0), find_indep .uint16 tieBufB 3 out1 (0, 0)]
  refine ⟨by decide!, by decide!, by decide!⟩

/-! ## Nearest sample -/

/-- C1, as the claim states it, fails: in the `uint16` buffer `[1, 2, 0, 15]` the elements
`1` (index 0) and `2` (index 1) have the same exact distance `1/30` to position `0.1`, so
index 0 is the least index of minimal exact distance; in double arithmetic the distance of
`2` is strictly smaller than that of `1`, and the call returns `minOut = 2 = p[1]`. -/
theorem nearest_first_fails :
    Typed .uint16 roundTieBuf 4 ∧ NonConstant roundTieBuf 4 ∧
    IsMin roundTieBuf 4 0 ∧ IsMax roundTieBuf 4 15 ∧
    FirstArgmin (fun k => exactDist (1 / 10) 0 15 (roundTieBuf k)) 4 0 ∧
    exactDist (1 / 10) 0 15 (roundTieBuf 0) = exactDist (1 / 10) 0 15 (roundTieBuf 1) ∧
    minPOf 0 (rangeOf .uint16 0 15) (roundTieBuf 1) <
      minPOf 0 (rangeOf .uint16 0 15) (roundTieBuf 0) ∧
    (findMinMaxPercentile .uint16 roundTieBuf 4 (0, 0)).1 = roundTieBuf 1 ∧
    (findMinMaxPercentile .uint16 roundTieBuf 4 (0, 0)).1 ≠ roundTieBuf 0 := by
  refine ⟨by decide, by decide, by decide, by decide, by decide!, by decide!, by decide!,
    by decide!, by decide!⟩

/-- C1, amended: for a non-constant buffer of an element type of at most 32 bits whose spread
`aMax - aMin` is representable in the promoted type, `minOut = p[i]` and `maxOut = p[j]`
where `i` (`j`) is the least index minimising the distance to `0.1` (`0.9`) as computed
in double arithmetic; `p[i]` and `p[j]` also minimise the exact distance
`|pos - 0.1|`, `|pos - 0.9|` over all indices, and `i` (`j`) is the least index of minimal
exact distance whenever no other stored value lies at the same exact distance. -/
theorem nearest_sample (T : ElemType) (p : Nat → Int) (size : Nat) (out0 : Int × Int)
    (hb : T.bits ≤ 32) (hT : Typed T p size) (hf : SpreadFits T p size)
    (hnc : NonConstant p size) (lo hi : Int) (hlo : IsMin p size lo) (hhi : IsMax p size hi) :
    ∃ i j, findMinMaxPercentile T p size out0 = (p i, p j) ∧
      FirstArgmin (fun k => minPOf lo ((hi - lo : Int) : ℚ) (p k)) size i ∧
      FirstArgmin (fun k => maxPOf lo ((hi - lo : Int) : ℚ) (p k)) size j ∧
      (∀ k, k < size → exactDist (1 / 10) lo hi (p i) ≤ exactDist (1 / 10) lo hi (p k)) ∧
      (∀ k, k < size → exactDist (9 / 10) lo hi (p j) ≤ exactDist (9 / 10) lo hi (p k)) ∧
      ((∀ k, k < size → exactDist (1 / 10) lo hi (p k) = exactDist (1 / 10) lo hi (p i) →
          p k = p i) →
        FirstArgmin (fun k => exactDist (1 / 10) lo hi (p k)) size i) ∧
      ((∀ k, k < size → exactDist (9 / 10) lo hi (p k) = exactDist (9 / 10) lo hi (p j) →
          p k = p j) →
        FirstArgmin (fun k => exactDist (9 / 10) lo hi (p k)) size j) := by
  obtain ⟨i, j, he, hi', hj', hei, hej⟩ := nearest_core T p size out0 hb hT hf hnc lo hi hlo hhi
  refine ⟨i, j, he, hi', hj', hei, hej, ?_, ?_⟩
  · intro hu
    refine ⟨hi'.1, hei, ?_⟩
    intro k hk
    refine lt_of_le_of_ne (hei k (by have := hi'.1; omega)) ?_
    intro heq
    have hpk := hu k (by have := hi'.1; omega) heq.symm
    have := hi'.2.2 k hk
    dsimp only at this
    rw [hpk] at this
    exact lt_irrefl _ this
  · intro hu
    refine ⟨hj'.1, hej, ?_⟩
    intro k hk
    refine lt_of_le_of_ne (hej k (by have := hj'.1; omega)) ?_
    intro heq
    have hpk := hu k (by have := hj'.1; omega) heq.symm
    have := hj'.2.2 k hk
    dsimp only at this
    rw [hpk] at this
    exact lt_irrefl _ this

/-- Instance of `nearest_sample` on the `uint16` buffer `[1, 2, 0, 15]`. -/
theorem nearest_sample_witness :
    (ElemType.uint16.bits ≤ 32 ∧ Typed .uint16 roundTieBuf 4 ∧
      SpreadFits .uint16 roundTieBuf 4 ∧ NonConstant roundTieBuf 4 ∧
      IsMin roundTieBuf 4 0 ∧ IsMax roundTieBuf 4 15) ∧
    ∃ i j, findMinMaxPercentile .uint16 roundTieBuf 4 (0, 0) = (roundTieBuf i, roundTieBuf j) ∧
      FirstArgmin (fun k => minPOf 0 ((15 - 0 : Int) : ℚ) (roundTieBuf k)) 4 i ∧
      FirstArgmin (fun k => maxPOf 0 ((15 - 0 : Int) : ℚ) (roundTieBuf k)) 4 j ∧
      (∀ k, k < 4 → exactDist (1 / 10) 0 15 (roundTieBuf i) ≤
        exactDist (1 / 10) 0 15 (roundTieBuf k)) ∧
      (∀ k, k < 4 → exactDist (9 / 10) 0 15 (roundTieBuf j) ≤
        exactDist (9 / 10) 0 15 (roundTieBuf k)) ∧
      ((∀ k, k < 4 → exactDist (1 / 10) 0 15 (roundTieBuf k) =
          exactDist (1 / 10) 0 15 (roundTieBuf i) → roundTieBuf k = roundTieBuf i) →
        FirstArgmin (fun k => exactDist (1 / 10) 0 15 (roundTieBuf k)) 4 i) ∧
      ((∀ k, k < 4 → exactDist (9 / 10) 0 15 (roundTieBuf k) =
          exactDist (9 / 10) 0 15 (roundTieBuf j) → roundTieBuf k = roundTieBuf j) →
        FirstArgmin (fun k => exactDist (9 / 10) 0 15 (roundTieBuf k)) 4 j) :=
  ⟨⟨by decide, by decide, by decide, by decide, by decide, by decide⟩,
    nearest_sample .uint16 roundTieBuf 4 (0, 0) (by decide) (by decide) (by decide)
      (by decide) 0 15 (by decide) (by decide)⟩

/-! ## The ramp `0..99` -/

/-- C2: for every buffer whose 100 elements are the integers `0..99` in some order, of any
element type, the result is `(10, 89)`: both outputs are elements of the buffer,
`|minOut - 10| ≤ 1`, `|maxOut - 90| ≤ 1`, and they are the stored values of least exact
distance to the positions `0.1` and `0.9`. -/
theorem ramp_0_99 (T : ElemType) (p : Nat → Int) (out0 : Int × Int)
    (hperm : (contents p 100).Perm ((List.range 100).map Int.ofNat)) :
    findMinMaxPercentile T p 100 out0 = (10, 89) ∧
    |(findMinMaxPercentile T p 100 out0).1 - 10| ≤ 1 ∧
    |(findMinMaxPercentile T p 100 out0).2 - 90| ≤ 1 ∧
    (∃ i j, i < 100 ∧ j < 100 ∧ (findMinMaxPercentile T p 100 out0).1 = p i ∧
      (findMinMaxPercentile T p 100 out0).2 = p j) ∧
    (∀ k, k < 100 → exactDist (1 / 10) 0 99 (findMinMaxPercentile T p 100 out0).1 ≤
      exactDist (1 / 10) 0 99 (p k)) ∧
    (∀ k, k < 100 → exactDist (9 / 10) 0 99 (findMinMaxPercentile T p 100 out0).2 ≤
      exactDist (9 / 10) 0 99 (p k)) := by
  have hmem : ∀ v : Int, (∃ k, k < 100 ∧ p k = v) ↔ ∃ n : Nat, n < 100 ∧ Int.ofNat n = v := by
    intro v
    rw [← mem_contents, hperm.mem_iff]
    simp
  have hval : ∀ k, k < 100 → ∃ n : Nat, n < 100 ∧ Int.ofNat n = p k := fun k hk =>
    (hmem (p k)).mp ⟨k, hk, rfl⟩
  have hidx : ∀ n : Nat, n < 100 → ∃ k, k < 100 ∧ p k = Int.ofNat n := fun n hn =>
    (hmem _).mpr ⟨n, hn, rfl⟩
  have hmin : IsMin p 100 0 := by
    refine ⟨hidx 0 (by norm_num), ?_⟩
    intro k hk
    obtain ⟨n, -, hn⟩ := hval k hk
    rw [← hn]
    exact Int.ofNat_nonneg n
  have hmax : IsMax p 100 99 := by
    refine ⟨hidx 99 (by norm_num), ?_⟩
    intro k hk
    obtain ⟨n, hn1, hn⟩ := hval k hk
    rw [← hn]
    show (n : Int) ≤ 99
    omega
  have hscan := scan_eq_of_isMin_isMax p 100 0 99 hmin hmax
  have hr : rangeOf T (scanMinMax p 100).1 (scanMinMax p 100).2 ≠ 0 := by
    rw [hscan]
    dsimp only
    rw [ramp_range]
    norm_num
  obtain ⟨i, j, hi, hj, he⟩ := find_select T p 100 out0 (by norm_num) hr
  rw [hscan] at hi hj
  dsimp only at hi hj
  rw [ramp_range] at hi hj
  obtain ⟨k10, hk10, hp10⟩ := hidx 10 (by norm_num)
  obtain ⟨k89, hk89, hp89⟩ := hidx 89 (by norm_num)
  have hpi : p i = 10 := by
    obtain ⟨n, hn1, hn⟩ := hval i hi.1
    have := hi.2.1 k10 hk10
    dsimp only at this
    rw [hp10, ← hn] at this
    rw [← hn]
    exact ramp_min_computed n hn1 this
  have hpj : p j = 89 := by
    obtain ⟨n, hn1, hn⟩ := hval j hj.1
    have := hj.2.1 k89 hk89
    dsimp only at this
    rw [hp89, ← hn] at this
    rw [← hn]
    exact ramp_max_computed n hn1 this
  have hres : findMinMaxPercentile T p 100 out0 = (10, 89) := by
    rw [he, hpi, hpj]
  rw [hres]
  refine ⟨rfl, by decide, by decide, ⟨i, j, hi.1, hj.1, hpi.symm, hpj.symm⟩, ?_, ?_⟩
  · intro k hk
    obtain ⟨n, hn1, hn⟩ := hval k hk
    rw [← hn]
    exact ramp_min_exact n hn1
  · intro k hk
    obtain ⟨n, hn1, hn⟩ := hval k hk
    rw [← hn]
    exact ramp_max_exact n hn1

/-- Instance of `ramp_0_99` on the descending buffer `99, 98, ..., 0` of `uint16`. -/
theorem ramp_0_99_witness :
    (contents (fun i => 99 - (i : Int)) 100).Perm ((List.range 100).map Int.ofNat) ∧
    findMinMaxPercentile .uint16 (fun i => 99 - (i : Int)) 100 (0, 0) = (10, 89) :=
  ⟨by decide!, (ramp_0_99 .uint16 (fun i => 99 - (i : Int)) (0, 0) (by decide!)).1⟩

/-! ## Order of the outputs -/

/-- C10, as the claim states it, fails: the `uint64` buffer `[2^63, 2^63 + 1]` is not
constant and its spread `1` is representable, but both elements convert to the same
`double`, both percentiles are `0`, and the call returns `(2^63, 2^63)`: `minOut < maxOut`
does not hold. -/
theorem strict_order_fails :
    Typed .uint64 collapseBuf 2 ∧ NonConstant collapseBuf 2 ∧ SpreadFits .uint64 collapseBuf 2 ∧
    findMinMaxPercentile .uint64 collapseBuf 2 (0, 0) =
      (9223372036854775808, 9223372036854775808) ∧
    ¬ ((findMinMaxPercentile .uint64 collapseBuf 2 (0, 0)).1 <
        (findMinMaxPercentile .uint64 collapseBuf 2 (0, 0)).2) := by
  refine ⟨by decide, by decide, by decide, by decide!, by decide!⟩

/-- C10, amended: for every buffer of an element type of at most 32 bits whose spread is
representable in the promoted type, `minOut ≤ maxOut`; if the buffer is not constant then
`minOut < maxOut`, the exact normalised position of `minOut` is at most `1/5`, that of
`maxOut` at least `4/5`, and `maxOut - minOut ≥ 3/5 * (aMax - aMin)`. -/
theorem outputs_ordered (T : ElemType) (p : Nat → Int) (size : Nat) (out0 : Int × Int)
    (hb : T.bits ≤ 32) (hT : Typed T p size) (hf : SpreadFits T p size) :
    (findMinMaxPercentile T p size out0).1 ≤ (findMinMaxPercentile T p size out0).2 ∧
    (NonConstant p size → ∀ lo hi, IsMin p size lo → IsMax p size hi →
      (findMinMaxPercentile T p size out0).1 < (findMinMaxPercentile T p size out0).2 ∧
      pos lo hi (findMinMaxPercentile T p size out0).1 ≤ 1 / 5 ∧
      4 / 5 ≤ pos lo hi (findMinMaxPercentile T p size out0).2 ∧
      (3 : ℚ) / 5 * ((hi - lo : Int) : ℚ) ≤
        (((findMinMaxPercentile T p size out0).2 - (findMinMaxPercentile T p size out0).1 : Int) : ℚ)) := by
  have main : NonConstant p size → ∀ lo hi, IsMin p size lo → IsMax p size hi →
      (findMinMaxPercentile T p size out0).1 < (findMinMaxPercentile T p size out0).2 ∧
      pos lo hi (findMinMaxPercentile T p size out0).1 ≤ 1 / 5 ∧
      4 / 5 ≤ pos lo hi (findMinMaxPercentile T p size out0).2 ∧
      (3 : ℚ) / 5 * ((hi - lo : Int) : ℚ) ≤
        (((findMinMaxPercentile T p size out0).2 - (findMinMaxPercentile T p size out0).1 : Int) : ℚ) := by
    intro hnc lo hi hlo hhi
    obtain ⟨i, j, he, -, -, hei, hej⟩ := nearest_core T p size out0 hb hT hf hnc lo hi hlo hhi
    have hlt : lo < hi := by
      have := scan_lt_of_nonConstant p size hnc
      rwa [scan_eq_of_isMin_isMax p size lo hi hlo hhi] at this
    obtain ⟨⟨a, ha1, ha2⟩, -⟩ := hlo
    obtain ⟨⟨b, hb1, hb2⟩, -⟩ := hhi
    have h1 := hei a ha1
    have h2 := hej b hb1
    rw [ha2] at h1
    rw [hb2] at h2
    unfold exactDist at h1 h2
    rw [pos_lo] at h1
    rw [pos_hi lo hi hlt] at h2
    have e1 : |(0 : ℚ) - 1 / 10| = 1 / 10 := by
      rw [zero_sub, abs_neg, abs_of_pos (by norm_num)]
    have e2 : |(1 : ℚ) - 9 / 10| = 1 / 10 := by
      rw [abs_of_pos (by norm_num)]
      norm_num
    rw [e1] at h1
    rw [e2] at h2
    rw [abs_le] at h1 h2
    rw [he]
    dsimp only
    have hr0 : (0 : ℚ) < ((hi - lo : Int) : ℚ) := by
      exact_mod_cast (by omega : (0 : Int) < hi - lo)
    have hdiff : pos lo hi (p j) - pos lo hi (p i) =
        ((p j - p i : Int) : ℚ) / ((hi - lo : Int) : ℚ) := by
      unfold pos
      push_cast
      ring
    have h3 : (3 : ℚ) / 5 ≤ ((p j - p i : Int) : ℚ) / ((hi - lo : Int) : ℚ) := by
      rw [← hdiff]; linarith
    rw [le_div_iff₀ hr0] at h3
    refine ⟨?_, by linarith, by linarith, h3⟩
    have : (0 : ℚ) < ((p j - p i : Int) : ℚ) := by nlinarith
    have : (0 : Int) < p j - p i := by exact_mod_cast this
    omega
  refine ⟨?_, main⟩
  by_cases hnc : NonConstant p size
  · obtain ⟨h1, h2⟩ := scan_isMin_isMax p size (nonConstant_pos p size hnc)
    exact le_of_lt (main hnc _ _ h1 h2).1
  · by_cases hs : size = 0
    · subst hs
      rw [find_of_size_zero]
    · have hs' : 0 < size := by omega
      obtain ⟨-, ⟨a, ha, hmin⟩, ⟨b, hb', hmax⟩⟩ := scanMinMax_spec p size hs'
      have hab : p a = p b := by
        by_contra hne
        exact hnc ⟨a, ha, b, hb', hne⟩
      rw [find_of_range_zero]
      rw [← hmin, ← hmax, hab]
      exact rangeOf_self T _

/-- Instance of `outputs_ordered` on the `uint16` buffer `[0, 2, 10]`. -/
theorem outputs_ordered_witness :
    (ElemType.uint16.bits ≤ 32 ∧ Typed .uint16 tieBufA 3 ∧ SpreadFits .uint16 tieBufA 3) ∧
    (findMinMaxPercentile .uint16 tieBufA 3 (0, 0)).1 ≤
      (findMinMaxPercentile .uint16 tieBufA 3 (0, 0)).2 ∧
    (NonConstant tieBufA 3 → ∀ lo hi, IsMin tieBufA 3 lo → IsMax tieBufA 3 hi →
      (findMinMaxPercentile .uint16 tieBufA 3 (0, 0)).1 <
        (findMinMaxPercentile .uint16 tieBufA 3 (0, 0)).2 ∧
      pos lo hi (findMinMaxPercentile .uint16 tieBufA 3 (0, 0)).1 ≤ 1 / 5 ∧
      4 / 5 ≤ pos lo hi (findMinMaxPercentile .uint16 tieBufA 3 (0, 0)).2 ∧
      (3 : ℚ) / 5 * ((hi - lo : Int) : ℚ) ≤
        (((findMinMaxPercentile .uint16 tieBufA 3 (0, 0)).2 -
          (findMinMaxPercentile .uint16 tieBufA 3 (0, 0)).1 : Int) : ℚ)) :=
  ⟨⟨by decide, by decide, by decide⟩,
    outputs_ordered .uint16 tieBufA 3 (0, 0) (by decide) (by decide) (by decide)⟩

/-! ## Translation and permutation: auxiliary facts -/

theorem firstArgmin_congr (d d' : Nat → ℚ) (size i : Nat)
    (h : ∀ k, k < size → d k = d' k) (hi : FirstArgmin d size i) : FirstArgmin d' size i := by
  obtain ⟨h1, h2, h3⟩ := hi
  refine ⟨h1, ?_, ?_⟩
  · intro k hk
    rw [← h i h1, ← h k hk]
    exact h2 k hk
  · intro k hk
    rw [← h i h1, ← h k (by omega)]
    exact h3 k hk

theorem exactlyConvertible_of_bits (T : ElemType) (hb : T.bits ≤ 32) (p : Nat → Int)
    (size : Nat) (hT : Typed T p size) : ExactlyConvertible p size := by
  intro i hi
  exact lt_of_le_of_lt (inRange_abs_le T hb _ (hT i hi)) (by norm_num)

/-- With exactly convertible operands the percentile is the rounded quotient of the exact
difference `v - lo` by `range`. -/
theorem percentileOf_exact_of_lt (lo v : Int) (range : ℚ) (hlo : |lo| < 2 ^ 52)
    (hv : |v| < 2 ^ 52) :
    percentileOf lo range v = fl (((v - lo : Int) : ℚ) / range) := by
  unfold percentileOf toDouble
  rw [abs_lt] at hlo hv
  rw [fl_intCast v (by rw [abs_lt]; constructor <;> omega),
    fl_intCast lo (by rw [abs_lt]; constructor <;> omega)]
  have e : (v : ℚ) - (lo : ℚ) = ((v - lo : Int) : ℚ) := by push_cast; ring
  rw [e, fl_intCast]
  rw [abs_lt]
  constructor <;> omega

theorem isMin_translate (p : Nat → Int) (size : Nat) (c lo : Int) (h : IsMin p size lo) :
    IsMin (translate p c) size (lo + c) := by
  obtain ⟨⟨i, hi, hp⟩, hlb⟩ := h
  refine ⟨⟨i, hi, by unfold translate; rw [hp]⟩, ?_⟩
  intro k hk
  have := hlb k hk
  unfold translate
  omega

theorem isMax_translate (p : Nat → Int) (size : Nat) (c hi : Int) (h : IsMax p size hi) :
    IsMax (translate p c) size (hi + c) := by
  obtain ⟨⟨i, hi', hp⟩, hub⟩ := h
  refine ⟨⟨i, hi', by unfold translate; rw [hp]⟩, ?_⟩
  intro k hk
  have := hub k hk
  unfold translate
  omega

theorem rangeOf_translate (T : ElemType) (lo hi c : Int) :
    rangeOf T (lo + c) (hi + c) = rangeOf T lo hi := by
  unfold rangeOf
  have : hi + c - (lo + c) = hi - lo := by ring
  rw [this]

theorem percentileOf_translate (lo v c : Int) (range : ℚ) (hlo : |lo| < 2 ^ 52)
    (hv : |v| < 2 ^ 52) (hloc : |lo + c| < 2 ^ 52) (hvc : |v + c| < 2 ^ 52) :
    percentileOf (lo + c) range (v + c) = percentileOf lo range v := by
  rw [percentileOf_exact_of_lt _ _ _ hloc hvc, percentileOf_exact_of_lt _ _ _ hlo hv]
  have : v + c - (lo + c) = v - lo := by ring
  rw [this]

/-- Translation of an exactly convertible, non-constant, typed buffer translates the result. -/
theorem translate_core (T : ElemType) (p : Nat → Int) (size : Nat) (c : Int)
    (out0 out1 : Int × Int) (hT : Typed T p size) (hnc : NonConstant p size)
    (hp : ExactlyConvertible p size) (hq : ExactlyConvertible (translate p c) size) :
    findMinMaxPercentile T (translate p c) size out1 =
      ((findMinMaxPercentile T p size out0).1 + c, (findMinMaxPercentile T p size out0).2 + c) := by
  have hs := nonConstant_pos p size hnc
  obtain ⟨hlo, hhi⟩ := scan_isMin_isMax p size hs
  generalize hmm : scanMinMax p size = mm at hlo hhi
  have hscanq := scan_eq_of_isMin_isMax (translate p c) size _ _
    (isMin_translate p size c _ hlo) (isMax_translate p size c _ hhi)
  obtain ⟨h1, h2⟩ := scan_inRange T p size hs hT
  have hlt := scan_lt_of_nonConstant p size hnc
  have hr := rangeOf_ne_zero T _ _ h1 h2 hlt
  have hrq : rangeOf T (scanMinMax (translate p c) size).1 (scanMinMax (translate p c) size).2
      ≠ 0 := by
    rw [hscanq]
    dsimp only
    rw [rangeOf_translate, ← hmm]
    exact hr
  obtain ⟨i, j, hi, hj, he⟩ := find_select T p size out0 hs hr
  obtain ⟨i', j', hi', hj', he'⟩ := find_select T (translate p c) size out1 hs hrq
  rw [hscanq] at hi' hj'
  dsimp only at hi' hj'
  rw [rangeOf_translate] at hi' hj'
  rw [hmm] at hi hj
  obtain ⟨⟨a, ha, hpa⟩, -⟩ := hlo
  have hlomag : |mm.1| < 2 ^ 52 := by rw [← hpa]; exact hp a ha
  have hlocmag : |mm.1 + c| < 2 ^ 52 := by
    have := hq a ha
    unfold translate at this
    rwa [hpa] at this
  have hperc : ∀ k, k < size →
      percentileOf (mm.1 + c) (rangeOf T mm.1 mm.2) (translate p c k) =
        percentileOf mm.1 (rangeOf T mm.1 mm.2) (p k) := by
    intro k hk
    have := hq k hk
    unfold translate at this ⊢
    exact percentileOf_translate mm.1 (p k) c _ hlomag (hp k hk) hlocmag this
  have hi'' : FirstArgmin (fun k => minPOf mm.1 (rangeOf T mm.1 mm.2) (p k)) size i' := by
    refine firstArgmin_congr _ _ size i' ?_ hi'
    intro k hk
    unfold minPOf
    rw [hperc k hk]
  have hj'' : FirstArgmin (fun k => maxPOf mm.1 (rangeOf T mm.1 mm.2) (p k)) size j' := by
    refine firstArgmin_congr _ _ size j' ?_ hj'
    intro k hk
    unfold maxPOf
    rw [hperc k hk]
  rw [he, he', firstArgmin_unique _ _ _ _ hi hi'', firstArgmin_unique _ _ _ _ hj hj'']
  rfl

/-- A buffer that is empty or constant yields `(0, 0)`. -/
theorem find_of_not_nonConstant (T : ElemType) (p : Nat → Int) (size : Nat)
    (out0 : Int × Int) (h : ¬ NonConstant p size) :
    findMinMaxPercentile T p size out0 = (0, 0) := by
  by_cases hs : size = 0
  · subst hs
    exact find_of_size_zero T p out0
  · obtain ⟨-, ⟨a, ha, hmin⟩, ⟨b, hb, hmax⟩⟩ := scanMinMax_spec p size (by omega)
    have hab : p a = p b := by
      by_contra hne
      exact h ⟨a, ha, b, hb, hne⟩
    apply find_of_range_zero
    rw [← hmin, ← hmax, hab]
    exact rangeOf_self T _

theorem nonConstant_translate (p : Nat → Int) (size : Nat) (c : Int)
    (h : NonConstant (translate p c) size) : NonConstant p size := by
  obtain ⟨i, hi, j, hj, hne⟩ := h
  refine ⟨i, hi, j, hj, ?_⟩
  unfold translate at hne
  omega

theorem mem_iff_of_perm (p q : Nat → Int) (size : Nat)
    (hperm : (contents p size).Perm (contents q size)) (v : Int) :
    (∃ k, k < size ∧ p k = v) ↔ ∃ k, k < size ∧ q k = v := by
  rw [← mem_contents, ← mem_contents]
  exact hperm.mem_iff

theorem isMin_of_perm (p q : Nat → Int) (size : Nat)
    (hperm : (contents p size).Perm (contents q size)) (lo : Int) (h : IsMin p size lo) :
    IsMin q size lo := by
  obtain ⟨hex, hlb⟩ := h
  refine ⟨(mem_iff_of_perm p q size hperm lo).mp hex, ?_⟩
  intro i hi
  obtain ⟨k, hk, hpk⟩ := (mem_iff_of_perm p q size hperm (q i)).mpr ⟨i, hi, rfl⟩
  rw [← hpk]
  exact hlb k hk

theorem isMax_of_perm (p q : Nat → Int) (size : Nat)
    (hperm : (contents p size).Perm (contents q size)) (hi : Int) (h : IsMax p size hi) :
    IsMax q size hi := by
  obtain ⟨hex, hub⟩ := h
  refine ⟨(mem_iff_of_perm p q size hperm hi).mp hex, ?_⟩
  intro i hi'
  obtain ⟨k, hk, hpk⟩ := (mem_iff_of_perm p q size hperm (q i)).mpr ⟨i, hi', rfl⟩
  rw [← hpk]
  exact hub k hk

/-- Two buffers with the same elements select the same value when the least distance is
attained by a single value. -/
theorem select_value_of_perm (d : Int → ℚ) (p q : Nat → Int) (size i i' : Nat)
    (hperm : (contents p size).Perm (contents q size))
    (hsingle : SingleMinValue d p size)
    (hi : FirstArgmin (fun k => d (p k)) size i)
    (hi' : FirstArgmin (fun k => d (q k)) size i') : q i' = p i := by
  obtain ⟨m, hm, hpm⟩ := (mem_iff_of_perm p q size hperm (q i')).mpr ⟨i', hi'.1, rfl⟩
  rw [← hpm]
  refine hsingle m hm i hi.1 ?_ hi.2.1
  intro k hk
  obtain ⟨k', hk', hqk⟩ := (mem_iff_of_perm p q size hperm (p k)).mp ⟨k, hk, rfl⟩
  rw [hpm, ← hqk]
  exact hi'.2.1 k' hk'

/-- When the least computed distance to `0.1` and the least computed distance to `0.9` are
each attained by a single value, any buffer with the same elements gives the same result. -/
theorem perm_core (T : ElemType) (p q : Nat → Int) (size : Nat) (out0 out1 : Int × Int)
    (hperm : (contents p size).Perm (contents q size))
    (hmin : SingleMinValue (minPOf (scanMinMax p size).1
      (rangeOf T (scanMinMax p size).1 (scanMinMax p size).2)) p size)
    (hmax : SingleMinValue (maxPOf (scanMinMax p size).1
      (rangeOf T (scanMinMax p size).1 (scanMinMax p size).2)) p size) :
    findMinMaxPercentile T q size out1 = findMinMaxPercentile T p size out0 := by
  by_cases hs : size = 0
  · subst hs
    rw [find_of_size_zero, find_of_size_zero]
  have hs' : 0 < size := by omega
  obtain ⟨hlo, hhi⟩ := scan_isMin_isMax p size hs'
  have hscan : scanMinMax q size = scanMinMax p size :=
    scan_eq_of_isMin_isMax q size _ _ (isMin_of_perm p q size hperm _ hlo)
      (isMax_of_perm p q size hperm _ hhi)
  by_cases hr : rangeOf T (scanMinMax p size).1 (scanMinMax p size).2 = 0
  · rw [find_of_range_zero T p size out0 hr,
      find_of_range_zero T q size out1 (by rw [hscan]; exact hr)]
  obtain ⟨i, j, hi, hj, he⟩ := find_select T p size out0 hs' hr
  obtain ⟨i', j', hi', hj', he'⟩ := find_select T q size out1 hs' (by rw [hscan]; exact hr)
  rw [hscan] at hi' hj'
  rw [he, he', select_value_of_perm _ p q size i i' hperm hmin hi hi',
    select_value_of_perm _ p q size j j' hperm hmax hj hj']

/-- For element types of at most 32 bits without spread overflow, an element of least
computed distance to `0.1` is an element of least exact distance. -/
theorem exact_min_of_computed_min (T : ElemType) (p : Nat → Int) (size : Nat)
    (hb : T.bits ≤ 32) (hT : Typed T p size) (hf : SpreadFits T p size) (lo hi : Int)
    (hlo : IsMin p size lo) (hhi : IsMax p size hi) (hlt : lo < hi) (i : Nat) (hi' : i < size)
    (hmin : ∀ m, m < size →
      minPOf lo (rangeOf T lo hi) (p i) ≤ minPOf lo (rangeOf T lo hi) (p m)) :
    ∀ m, m < size → exactDist (1 / 10) lo hi (p i) ≤ exactDist (1 / 10) lo hi (p m) := by
  obtain ⟨⟨a, ha1, ha2⟩, hlb⟩ := hlo
  obtain ⟨⟨b, hb1, hb2⟩, hub⟩ := hhi
  have hfit : T.promote.InRange (hi - lo) := by
    have := hf b hb1 a ha1 (by rw [ha2, hb2]; exact le_of_lt hlt)
    rwa [ha2, hb2] at this
  have hr32 : hi - lo ≤ 2 ^ 32 :=
    (abs_le.mp (inRange_abs_le T.promote (promote_bits_le T hb) _ hfit)).2
  have hmag : ∀ k, k < size → |p k| ≤ 2 ^ 32 := fun k hk =>
    inRange_abs_le T hb _ (hT k hk)
  have hlomag : |lo| ≤ 2 ^ 32 := by rw [← ha2]; exact hmag a ha1
  rw [rangeOf_exact T hb lo hi hfit] at hmin
  intro m hm
  by_contra hcon
  rw [not_le] at hcon
  have h1 : (1 : ℚ) / 10 = ((1 : Int) : ℚ) / 10 := by norm_num
  rw [h1] at hcon
  have := computed_lt_of_exact_lt 1 lo hi (p m) (p i) (by norm_num) (by norm_num) hlt hr32
    (hlb m hm) (hub m hm) (hlb i hi') (hub i hi') hcon
  rw [← minPOf_exact lo hi (p m) hlomag (hmag m hm),
    ← minPOf_exact lo hi (p i) hlomag (hmag i hi')] at this
  exact absurd (hmin m hm) (not_le.mpr this)

/-- The same for the distance to `0.9`. -/
theorem exact_max_of_computed_max (T : ElemType) (p : Nat → Int) (size : Nat)
    (hb : T.bits ≤ 32) (hT : Typed T p size) (hf : SpreadFits T p size) (lo hi : Int)
    (hlo : IsMin p size lo) (hhi : IsMax p size hi) (hlt : lo < hi) (i : Nat) (hi' : i < size)
    (hmin : ∀ m, m < size →
      maxPOf lo (rangeOf T lo hi) (p i) ≤ maxPOf lo (rangeOf T lo hi) (p m)) :
    ∀ m, m < size → exactDist (9 / 10) lo hi (p i) ≤ exactDist (9 / 10) lo hi (p m) := by
  obtain ⟨⟨a, ha1, ha2⟩, hlb⟩ := hlo
  obtain ⟨⟨b, hb1, hb2⟩, hub⟩ := hhi
  have hfit : T.promote.InRange (hi - lo) := by
    have := hf b hb1 a ha1 (by rw [ha2, hb2]; exact le_of_lt hlt)
    rwa [ha2, hb2] at this
  have hr32 : hi - lo ≤ 2 ^ 32 :=
    (abs_le.mp (inRange_abs_le T.promote (promote_bits_le T hb) _ hfit)).2
  have hmag : ∀ k, k < size → |p k| ≤ 2 ^ 32 := fun k hk =>
    inRange_abs_le T hb _ (hT k hk)
  have hlomag : |lo| ≤ 2 ^ 32 := by rw [← ha2]; exact hmag a ha1
  rw [rangeOf_exact T hb lo hi hfit] at hmin
  intro m hm
  by_contra hcon
  rw [not_le] at hcon
  have h1 : (9 : ℚ) / 10 = ((9 : Int) : ℚ) / 10 := by norm_num
  rw [h1] at hcon
  have := computed_lt_of_exact_lt 9 lo hi (p m) (p i) (by norm_num) (by norm_num) hlt hr32
    (hlb m hm) (hub m hm) (hlb i hi') (hub i hi') hcon
  rw [← maxPOf_exact lo hi (p m) hlomag (hmag m hm),
    ← maxPOf_exact lo hi (p i) hlomag (hmag i hi')] at this
  exact absurd (hmin m hm) (not_le.mpr this)

/-! ## Translation of the buffer -/

/-- C11, as the claim states it, fails: the `uint64` buffer `[0, 1, 10]` gives `(1, 10)`;
translated by `c = 2^63` every element is still a `uint64` value, but all three elements
convert to the same `double` and the call returns `(2^63, 2^63)`, not
`(1 + 2^63, 10 + 2^63)`. -/
theorem translation_fails :
    Typed .uint64 shiftBuf 3 ∧ NonConstant shiftBuf 3 ∧
    Typed .uint64 (translate shiftBuf 9223372036854775808) 3 ∧
    findMinMaxPercentile .uint64 shiftBuf 3 (0, 0) = (1, 10) ∧
    findMinMaxPercentile .uint64 (translate shiftBuf 9223372036854775808) 3 (0, 0) =
      (9223372036854775808, 9223372036854775808) ∧
    findMinMaxPercentile .uint64 (translate shiftBuf 9223372036854775808) 3 (0, 0) ≠
      ((findMinMaxPercentile .uint64 shiftBuf 3 (0, 0)).1 + 9223372036854775808,
        (findMinMaxPercentile .uint64 shiftBuf 3 (0, 0)).2 + 9223372036854775808) := by
  refine ⟨by decide, by decide, by decide, by decide!, by decide!, by decide!⟩

/-- C11, amended: for a buffer `p` of an integer element type and an integer `c` such that
every `p[i] + c` is representable in the type, if the type has at most 32 bits (or, for any
type, if every `p[i]` and every `p[i] + c` is below `2 ^ 52` in magnitude), then on a
non-constant `p` the call on the translated buffer returns `(minOut + c, maxOut + c)`;
on an empty or constant `p` both calls return `(0, 0)`. -/
theorem translation_equivariant (T : ElemType) (p : Nat → Int) (size : Nat) (c : Int)
    (out0 out1 : Int × Int) (hT : Typed T p size) (hTc : Typed T (translate p c) size)
    (hex : T.bits ≤ 32 ∨
      (ExactlyConvertible p size ∧ ExactlyConvertible (translate p c) size)) :
    (NonConstant p size →
      findMinMaxPercentile T (translate p c) size out1 =
        ((findMinMaxPercentile T p size out0).1 + c,
          (findMinMaxPercentile T p size out0).2 + c)) ∧
    (¬ NonConstant p size →
      findMinMaxPercentile T p size out0 = (0, 0) ∧
      findMinMaxPercentile T (translate p c) size out1 = (0, 0)) := by
  constructor
  · intro hnc
    rcases hex with hb | ⟨hp, hq⟩
    · exact translate_core T p size c out0 out1 hT hnc
        (exactlyConvertible_of_bits T hb p size hT)
        (exactlyConvertible_of_bits T hb _ size hTc)
    · exact translate_core T p size c out0 out1 hT hnc hp hq
  · intro hnc
    exact ⟨find_of_not_nonConstant T p size out0 hnc,
      find_of_not_nonConstant T _ size out1 (fun h => hnc (nonConstant_translate p size c h))⟩

/-- Instance of `translation_equivariant` on the `uint16` buffer `[0, 2, 10]` with `c = 5`. -/
theorem translation_equivariant_witness :
    (Typed .uint16 tieBufA 3 ∧ Typed .uint16 (translate tieBufA 5) 3 ∧
      (ElemType.uint16.bits ≤ 32 ∨
        (ExactlyConvertible tieBufA 3 ∧ ExactlyConvertible (translate tieBufA 5) 3))) ∧
    (NonConstant tieBufA 3 →
      findMinMaxPercentile .uint16 (translate tieBufA 5) 3 (0, 0) =
        ((findMinMaxPercentile .uint16 tieBufA 3 (0, 0)).1 + 5,
          (findMinMaxPercentile .uint16 tieBufA 3 (0, 0)).2 + 5)) ∧
    (¬ NonConstant tieBufA 3 →
      findMinMaxPercentile .uint16 tieBufA 3 (0, 0) = (0, 0) ∧
      findMinMaxPercentile .uint16 (translate tieBufA 5) 3 (0, 0) = (0, 0)) :=
  ⟨⟨by decide, by decide, Or.inl (by decide)⟩,
    translation_equivariant .uint16 tieBufA 3 5 (0, 0) (0, 0) (by decide) (by decide)
      (Or.inl (by decide))⟩

/-! ## Permutation of the buffer -/

/-- C12, as the claim states it, fails: in the `uint64` buffer `[2^63, 2^63 + 1]` the exact
positions are `0` and `1`, so the least exact distance to `0.1` is attained by `2^63` alone
and the least exact distance to `0.9` by `2^63 + 1` alone; both elements convert to the same
`double`, the first element wins both selections, and the buffer and its permutation
`[2^63 + 1, 2^63]` give different results. -/
theorem perm_exact_fails :
    (contents collapseBuf 2).Perm (contents collapseBufRev 2) ∧
    Typed .uint64 collapseBuf 2 ∧ NonConstant collapseBuf 2 ∧
    IsMin collapseBuf 2 9223372036854775808 ∧ IsMax collapseBuf 2 9223372036854775809 ∧
    SingleMinValue (exactDist (1 / 10) 9223372036854775808 9223372036854775809) collapseBuf 2 ∧
    SingleMinValue (exactDist (9 / 10) 9223372036854775808 9223372036854775809) collapseBuf 2 ∧
    findMinMaxPercentile .uint64 collapseBuf 2 (0, 0) =
      (9223372036854775808, 9223372036854775808) ∧
    findMinMaxPercentile .uint64 collapseBufRev 2 (0, 0) =
      (9223372036854775809, 9223372036854775809) ∧
    findMinMaxPercentile .uint64 collapseBufRev 2 (0, 0) ≠
      findMinMaxPercentile .uint64 collapseBuf 2 (0, 0) := by
  refine ⟨by decide, by decide, by decide, by decide, by decide, by decide!, by decide!,
    by decide!, by decide!, by decide!⟩

/-- C12, amended: a buffer `q` with the same elements as the non-empty buffer `p` gives the
same result as `p` (a) for every element type, when the least distance to `0.1` and the
least distance to `0.9`, as computed in double arithmetic, are each attained by a single
value of `p`; (b) for element types of at most 32 bits whose spread is representable in the
promoted type, when the least exact distances `|pos - 0.1|` and `|pos - 0.9|` are each
attained by a single value of `p`. -/
theorem perm_invariant (T : ElemType) (p q : Nat → Int) (size : Nat) (out0 out1 : Int × Int)
    (lo hi : Int) (hperm : (contents p size).Perm (contents q size))
    (hlo : IsMin p size lo) (hhi : IsMax p size hi)
    (hnotie :
      (SingleMinValue (minPOf lo (rangeOf T lo hi)) p size ∧
        SingleMinValue (maxPOf lo (rangeOf T lo hi)) p size) ∨
      (T.bits ≤ 32 ∧ Typed T p size ∧ SpreadFits T p size ∧
        SingleMinValue (exactDist (1 / 10) lo hi) p size ∧
        SingleMinValue (exactDist (9 / 10) lo hi) p size)) :
    findMinMaxPercentile T q size out1 = findMinMaxPercentile T p size out0 := by
  have hscan := scan_eq_of_isMin_isMax p size lo hi hlo hhi
  rcases hnotie with ⟨h1, h2⟩ | ⟨hb, hT, hf, h1, h2⟩
  · exact perm_core T p q size out0 out1 hperm (by rw [hscan]; exact h1)
      (by rw [hscan]; exact h2)
  · by_cases hlt : lo < hi
    · refine perm_core T p q size out0 out1 hperm ?_ ?_
      · rw [hscan]
        intro i hi' k hk hmi hmk
        exact h1 i hi' k hk
          (exact_min_of_computed_min T p size hb hT hf lo hi hlo hhi hlt i hi' hmi)
          (exact_min_of_computed_min T p size hb hT hf lo hi hlo hhi hlt k hk hmk)
      · rw [hscan]
        intro i hi' k hk hmi hmk
        exact h2 i hi' k hk
          (exact_max_of_computed_max T p size hb hT hf lo hi hlo hhi hlt i hi' hmi)
          (exact_max_of_computed_max T p size hb hT hf lo hi hlo hhi hlt k hk hmk)
    · have hnc : ¬ NonConstant p size := by
        intro hnc
        have := scan_lt_of_nonConstant p size hnc
        rw [hscan] at this
        exact hlt this
      have hncq : ¬ NonConstant q size := by
        rintro ⟨i, hi', j, hj, hne⟩
        obtain ⟨a, ha, hpa⟩ := (mem_iff_of_perm p q size hperm (q i)).mpr ⟨i, hi', rfl⟩
        obtain ⟨b, hb', hpb⟩ := (mem_iff_of_perm p q size hperm (q j)).mpr ⟨j, hj, rfl⟩
        exact hnc ⟨a, ha, b, hb', by rw [hpa, hpb]; exact hne⟩
      rw [find_of_not_nonConstant T p size out0 hnc, find_of_not_nonConstant T q size out1 hncq]

/-- Instance of `perm_invariant` on the `uint16` buffers `[0, 1, 10]` and `[10, 0, 1]`. -/
theorem perm_invariant_witness :
    ((contents shiftBuf 3).Perm (contents shiftBufRot 3) ∧
      IsMin shiftBuf 3 0 ∧ IsMax shiftBuf 3 10 ∧
      ((SingleMinValue (minPOf 0 (rangeOf .uint16 0 10)) shiftBuf 3 ∧
          SingleMinValue (maxPOf 0 (rangeOf .uint16 0 10)) shiftBuf 3) ∨
        (ElemType.uint16.bits ≤ 32 ∧ Typed .uint16 shiftBuf 3 ∧ SpreadFits .uint16 shiftBuf 3 ∧
          SingleMinValue (exactDist (1 / 10) 0 10) shiftBuf 3 ∧
          SingleMinValue (exactDist (9 / 10) 0 10) shiftBuf 3))) ∧
    findMinMaxPercentile .uint16 shiftBufRot 3 (0, 0) =
      findMinMaxPercentile .uint16 shiftBuf 3 (0, 0) :=
  ⟨⟨by decide, by decide, by decide,
      Or.inr ⟨by decide, by decide, by decide, by decide!, by decide!⟩⟩,
    perm_invariant .uint16 shiftBuf shiftBufRot 3 (0, 0) (0, 0) 0 10 (by decide) (by decide)
      (by decide) (Or.inr ⟨by decide, by decide, by decide, by decide!, by decide!⟩)⟩

/-! ## Floating-point element types: rounding and loop invariants -/

theorem rne_ne_zero (y : ℚ) (h : 1 ≤ |y|) : rne y ≠ 0 := by
  intro h0
  have := rne_error y
  rw [h0, Int.cast_zero, zero_sub, abs_neg] at this
  linarith

theorem flp_ne_zero (t : Nat) (x : ℚ) (hx : x ≠ 0) : flp t x ≠ 0 := by
  obtain ⟨lo, -⟩ := ilog2_spec x hx
  unfold flp
  simp only [pow2_eq_zpow]
  generalize ilog2 x = e at *
  have hs : (0 : ℚ) < 2 ^ (e - (t : Int)) := by positivity
  apply mul_ne_zero _ hs.ne'
  have hr : rne (x / 2 ^ (e - (t : Int))) ≠ 0 := by
    apply rne_ne_zero
    rw [abs_div, abs_of_pos hs, le_div_iff₀ hs, one_mul]
    refine le_trans ?_ lo
    apply zpow_le_zpow_right₀ (by norm_num)
    omega
  exact_mod_cast hr

theorem rne_zero : rne 0 = 0 := by
  have := rne_intCast 0
  simpa using this

theorem roundF_zero (F : FloatFormat) : roundF F 0 = .fin 0 := by
  unfold roundF
  rw [if_pos (by rw [abs_zero]; exact pow2_pos _)]
  simp [rne_zero]

/-- A value of the format is an integer multiple of the least subnormal number. -/
theorem representable_multiple (F : FloatFormat) (q : ℚ) (h : Representable F q) :
    ∃ n : Int, q = (n : ℚ) * pow2 F.qexp := by
  unfold Representable roundF at h
  by_cases h1 : |q| < pow2 F.emin
  · rw [if_pos h1] at h
    exact ⟨_, (FVal.fin.inj h).symm⟩
  · rw [if_neg h1] at h
    dsimp only at h
    by_cases h2 : pow2 (F.emax + 1) ≤ |flp F.t q|
    · rw [if_pos h2] at h
      split_ifs at h
    · rw [if_neg h2] at h
      have hq := FVal.fin.inj h
      have hq0 : q ≠ 0 := by
        intro h0
        rw [h0, abs_zero] at h1
        exact h1 (pow2_pos _)
      obtain ⟨-, hi⟩ := ilog2_spec q hq0
      rw [not_lt, pow2_eq_zpow] at h1
      have he : F.emin ≤ ilog2 q := by
        have : (2 : ℚ) ^ F.emin < 2 ^ (ilog2 q + 1) := lt_of_le_of_lt h1 hi
        have := (zpow_lt_zpow_iff_right₀ (by norm_num : (1 : ℚ) < 2)).mp this
        omega
      unfold flp at hq
      simp only [pow2_eq_zpow] at hq ⊢
      obtain ⟨k, hk⟩ : ∃ k : ℕ, ilog2 q - F.emin = (k : ℤ) :=
        ⟨(ilog2 q - F.emin).toNat, by omega⟩
      have hs : (2 : ℚ) ^ (ilog2 q - (F.t : Int)) = 2 ^ k * 2 ^ F.qexp := by
        rw [← zpow_natCast, ← zpow_add₀ (by norm_num : (2 : ℚ) ≠ 0)]
        congr 1
        unfold FloatFormat.qexp
        omega
      refine ⟨rne (q / 2 ^ (ilog2 q - (F.t : Int))) * 2 ^ k, ?_⟩
      rw [hs] at hq
      rw [hs]
      push_cast
      rw [mul_assoc]
      exact hq.symm

/-- The rounded difference of two distinct values of the format is an infinity or a nonzero
finite number. -/
theorem roundF_sub_pos (F : FloatFormat) (lo hi : ℚ) (hlo : Representable F lo)
    (hhi : Representable F hi) (h : lo < hi) :
    roundF F (hi - lo) = .pinf ∨ ∃ r, r ≠ 0 ∧ roundF F (hi - lo) = .fin r := by
  obtain ⟨a, ha⟩ := representable_multiple F lo hlo
  obtain ⟨b, hb⟩ := representable_multiple F hi hhi
  have hx : 0 < hi - lo := by linarith
  have hQ := pow2_pos F.qexp
  unfold roundF
  by_cases h1 : |hi - lo| < pow2 F.emin
  · rw [if_pos h1]
    right
    have e : (hi - lo) / pow2 F.qexp = ((b - a : Int) : ℚ) := by
      rw [ha, hb]
      push_cast
      field_simp
      ring
    rw [e, rne_intCast, ← e]
    refine ⟨hi - lo, hx.ne', ?_⟩
    congr 1
    field_simp
  · rw [if_neg h1]
    dsimp only
    by_cases h2 : pow2 (F.emax + 1) ≤ |flp F.t (hi - lo)|
    · rw [if_pos h2, if_pos hx]
      left
      rfl
    · rw [if_neg h2]
      right
      exact ⟨_, flp_ne_zero F.t _ hx.ne', rfl⟩

theorem ltF_trans (a b c : FVal) (h1 : ltF a b = true) (h2 : ltF b c = true) :
    ltF a c = true := by
  cases a <;> cases b <;> cases c <;> simp [ltF] at h1 h2 ⊢
  exact lt_trans h1 h2

theorem scanF_fold_spec (p : Nat → FVal) (n : Nat) (hfin : ∀ i, i < n + 1 → ∃ q, p i = .fin q) :
    ∃ lo hi : ℚ, (List.range' 1 n).foldl (scanStepF p) (p 0, p 0) = (.fin lo, .fin hi) ∧
      (∃ i, i < n + 1 ∧ p i = .fin lo) ∧ (∃ j, j < n + 1 ∧ p j = .fin hi) ∧
      ∀ i, i < n + 1 → ∀ q, p i = .fin q → lo ≤ q ∧ q ≤ hi := by
  induction n with
  | zero =>
    obtain ⟨q, hq⟩ := hfin 0 (by omega)
    refine ⟨q, q, by simp [hq], ⟨0, by omega, hq⟩, ⟨0, by omega, hq⟩, ?_⟩
    intro i hi q' hq'
    have : i = 0 := by omega
    subst this
    rw [hq] at hq'
    rw [FVal.fin.inj hq']
    exact ⟨le_rfl, le_rfl⟩
  | succ n ih =>
    obtain ⟨lo, hi, he, ⟨i, hi1, hi2⟩, ⟨j, hj1, hj2⟩, hb⟩ :=
      ih (fun i hi => hfin i (by omega))
    obtain ⟨q, hq⟩ := hfin (n + 1) (by omega)
    rw [List.range'_concat, List.foldl_append]
    simp only [List.foldl_cons, List.foldl_nil, Nat.mul_one]
    have h1n : 1 + 1 * n = n + 1 := by omega
    rw [he, h1n]
    unfold scanStepF
    simp only [hq, ltF]
    by_cases ha : hi < q <;> by_cases hc : q < lo
    · exact absurd (lt_trans ha hc) (not_lt.mpr (hb i hi1 lo hi2).2)
    · refine ⟨lo, q, by simp [ha, hc], ⟨i, by omega, hi2⟩, ⟨n + 1, by omega, hq⟩, ?_⟩
      intro k hk q' hq'
      by_cases hkn : k = n + 1
      · subst hkn
        rw [hq] at hq'
        rw [← FVal.fin.inj hq']
        exact ⟨not_lt.mp hc, le_rfl⟩
      · have := hb k (by omega) q' hq'
        exact ⟨this.1, le_trans this.2 (le_of_lt ha)⟩
    · refine ⟨q, hi, by simp [ha, hc], ⟨n + 1, by omega, hq⟩, ⟨j, by omega, hj2⟩, ?_⟩
      intro k hk q' hq'
      by_cases hkn : k = n + 1
      · subst hkn
        rw [hq] at hq'
        rw [← FVal.fin.inj hq']
        exact ⟨le_rfl, not_lt.mp ha⟩
      · have := hb k (by omega) q' hq'
        exact ⟨le_trans (le_of_lt hc) this.1, this.2⟩
    · refine ⟨lo, hi, by simp [ha, hc], ⟨i, by omega, hi2⟩, ⟨j, by omega, hj2⟩, ?_⟩
      intro k hk q' hq'
      by_cases hkn : k = n + 1
      · subst hkn
        rw [hq] at hq'
        rw [← FVal.fin.inj hq']
        exact ⟨not_lt.mp hc, not_lt.mp ha⟩
      · exact hb k (by omega) q' hq'

theorem scanMinMaxF_spec (p : Nat → FVal) (size : Nat) (hs : 0 < size)
    (hfin : ∀ i, i < size → ∃ q, p i = .fin q) :
    ∃ lo hi : ℚ, scanMinMaxF p size = (.fin lo, .fin hi) ∧
      (∃ i, i < size ∧ p i = .fin lo) ∧ (∃ j, j < size ∧ p j = .fin hi) ∧
      ∀ i, i < size → ∀ q, p i = .fin q → lo ≤ q ∧ q ≤ hi := by
  have hsz : size - 1 + 1 = size := by omega
  have := scanF_fold_spec p (size - 1) (fun i hi => hfin i (by omega))
  rw [hsz] at this
  exact this

theorem selectF_min_proj (p : Nat → FVal) (aMin range : FVal) (l : List Nat) :
    ∀ s : PStateF,
      ((l.foldl (selectStepF p aMin range) s).min,
        (l.foldl (selectStepF p aMin range) s).closestMinP) =
      l.foldl (trackStepF p (minPOfF aMin range)) (s.min, s.closestMinP) := by
  induction l with
  | nil => intro s; rfl
  | cons i l ih =>
    intro s
    rw [List.foldl_cons, List.foldl_cons, ih]
    congr 1
    unfold selectStepF trackStepF
    dsimp only
    split_ifs <;> rfl

theorem selectF_max_proj (p : Nat → FVal) (aMin range : FVal) (l : List Nat) :
    ∀ s : PStateF,
      ((l.foldl (selectStepF p aMin range) s).max,
        (l.foldl (selectStepF p aMin range) s).closestMaxP) =
      l.foldl (trackStepF p (maxPOfF aMin range)) (s.max, s.closestMaxP) := by
  induction l with
  | nil => intro s; rfl
  | cons i l ih =>
    intro s
    rw [List.foldl_cons, List.foldl_cons, ih]
    congr 1
    unfold selectStepF trackStepF
    dsimp only
    split_ifs <;> rfl

/-- A floating-point tracker either never found a distance below its start value and is
unchanged, or holds an element of the buffer and a distance below the start value. -/
theorem trackF_fold_spec (p : Nat → FVal) (d : FVal → FVal) (o0 c0 : FVal) (n : Nat) :
    ((List.range n).foldl (trackStepF p d) (o0, c0) = (o0, c0) ∧
        ∀ k, k < n → ltF (d (p k)) c0 = false) ∨
    ∃ i, i < n ∧ (List.range n).foldl (trackStepF p d) (o0, c0) = (p i, d (p i)) ∧
      ltF (d (p i)) c0 = true := by
  induction n with
  | zero => left; simp
  | succ n ih =>
    rw [List.range_succ, List.foldl_append]
    simp only [List.foldl_cons, List.foldl_nil]
    rcases ih with ⟨he, hall⟩ | ⟨i, hi, he, hlt⟩
    · rw [he]
      unfold trackStepF
      dsimp only
      by_cases h : ltF (d (p n)) c0 = true
      · rw [if_pos h]
        right
        exact ⟨n, by omega, rfl, h⟩
      · rw [if_neg h]
        left
        refine ⟨rfl, ?_⟩
        intro k hk
        by_cases hkn : k = n
        · subst hkn
          simpa using h
        · exact hall k (by omega)
    · rw [he]
      unfold trackStepF
      dsimp only
      right
      by_cases h : ltF (d (p n)) (d (p i)) = true
      · rw [if_pos h]
        exact ⟨n, by omega, rfl, ltF_trans _ _ _ h hlt⟩
      · rw [if_neg h]
        exact ⟨i, by omega, rfl, hlt⟩

theorem findF_of_size_zero (F : FloatFormat) (p : Nat → FVal) (out0 : FVal × FVal) :
    findMinMaxPercentileF F p 0 out0 = (.fin 0, .fin 0) := by
  simp [findMinMaxPercentileF]

/-- A floating-point buffer of identical finite values yields `(0, 0)`. -/
theorem findF_constant (F : FloatFormat) (p : Nat → FVal) (size : Nat) (out0 : FVal × FVal)
    (c : ℚ) (hs : 0 < size) (hc : ∀ i, i < size → p i = .fin c) :
    findMinMaxPercentileF F p size out0 = (.fin 0, .fin 0) := by
  obtain ⟨lo, hi, he, ⟨i, hi1, hi2⟩, ⟨j, hj1, hj2⟩, -⟩ :=
    scanMinMaxF_spec p size hs (fun i hi => ⟨c, hc i hi⟩)
  have hlo : lo = c := by
    rw [hc i hi1] at hi2
    exact (FVal.fin.inj hi2).symm
  have hhi : hi = c := by
    rw [hc j hj1] at hj2
    exact (FVal.fin.inj hj2).symm
  unfold findMinMaxPercentileF
  rw [if_neg (by omega : ¬ size = 0)]
  simp only [he, hlo, hhi, rangeOfF, subF, sub_self, roundF_zero, isZeroF, decide_True, if_true]

theorem percentileOfF_self (lo : ℚ) (range : FVal)
    (hr : range = .pinf ∨ ∃ r, r ≠ 0 ∧ range = .fin r) :
    percentileOfF (.fin lo) range (.fin lo) = .fin 0 := by
  unfold percentileOfF
  simp only [subF, sub_self, roundF_zero]
  rcases hr with h | ⟨r, hr0, h⟩
  · rw [h]; rfl
  · rw [h]
    simp only [divF, hr0, if_false, zero_div, roundF_zero]

theorem minPOfF_self_lt (lo : ℚ) (range : FVal)
    (hr : range = .pinf ∨ ∃ r, r ≠ 0 ∧ range = .fin r) :
    ltF (minPOfF (.fin lo) range (.fin lo)) sentinelF = true := by
  unfold minPOfF
  rw [percentileOfF_self lo range hr]
  decide!

theorem maxPOfF_self_lt (lo : ℚ) (range : FVal)
    (hr : range = .pinf ∨ ∃ r, r ≠ 0 ∧ range = .fin r) :
    ltF (maxPOfF (.fin lo) range (.fin lo)) sentinelF = true := by
  unfold maxPOfF
  rw [percentileOfF_self lo range hr]
  decide!

theorem ltF_irrefl (a : FVal) : ltF a a = false := by
  cases a <;> simp [ltF]

/-- Invariant of the first loop at a floating-point type: both bounds are elements seen so
far, no element seen so far is below `aMin` and none is above `aMax`. -/
theorem scanF_fold_inv (p : Nat → FVal) (n : Nat) :
    (∃ i, i < n + 1 ∧ p i = ((List.range' 1 n).foldl (scanStepF p) (p 0, p 0)).1) ∧
    (∃ j, j < n + 1 ∧ p j = ((List.range' 1 n).foldl (scanStepF p) (p 0, p 0)).2) ∧
    ∀ i, i < n + 1 →
      ltF (p i) ((List.range' 1 n).foldl (scanStepF p) (p 0, p 0)).1 = false ∧
      ltF ((List.range' 1 n).foldl (scanStepF p) (p 0, p 0)).2 (p i) = false := by
  induction n with
  | zero =>
    refine ⟨⟨0, by omega, rfl⟩, ⟨0, by omega, rfl⟩, ?_⟩
    intro i hi
    have : i = 0 := by omega
    subst this
    simp [ltF_irrefl]
  | succ n ih =>
    rw [List.range'_concat, List.foldl_append]
    simp only [List.foldl_cons, List.foldl_nil, Nat.mul_one]
    obtain ⟨⟨i, hi, hmin⟩, ⟨j, hj, hmax⟩, hb⟩ := ih
    generalize (List.range' 1 n).foldl (scanStepF p) (p 0, p 0) = s at *
    have h1n : 1 + 1 * n = n + 1 := by omega
    rw [h1n]
    unfold scanStepF
    dsimp only
    refine ⟨?_, ?_, ?_⟩
    · by_cases h : ltF (p (n + 1)) s.1 = true
      · rw [if_pos h]; exact ⟨n + 1, by omega, rfl⟩
      · rw [if_neg h]; exact ⟨i, by omega, hmin⟩
    · by_cases h : ltF s.2 (p (n + 1)) = true
      · rw [if_pos h]; exact ⟨n + 1, by omega, rfl⟩
      · rw [if_neg h]; exact ⟨j, by omega, hmax⟩
    · intro k hk
      constructor
      · by_cases h : ltF (p (n + 1)) s.1 = true
        · rw [if_pos h]
          by_cases hkn : k = n + 1
          · subst hkn; exact ltF_irrefl _
          · by_contra hc
            have hc' : ltF (p k) (p (n + 1)) = true := by simpa using hc
            have := ltF_trans _ _ _ hc' h
            rw [(hb k (by omega)).1] at this
            exact absurd this (by simp)
        · rw [if_neg h]
          by_cases hkn : k = n + 1
          · subst hkn; simpa using h
          · exact (hb k (by omega)).1
      · by_cases h : ltF s.2 (p (n + 1)) = true
        · rw [if_pos h]
          by_cases hkn : k = n + 1
          · subst hkn; exact ltF_irrefl _
          · by_contra hc
            have hc' : ltF (p (n + 1)) (p k) = true := by simpa using hc
            have := ltF_trans _ _ _ h hc'
            rw [(hb k (by omega)).2] at this
            exact absurd this (by simp)
        · rw [if_neg h]
          by_cases hkn : k = n + 1
          · subst hkn; simpa using h
          · exact (hb k (by omega)).2

theorem scanMinMaxF_inv (p : Nat → FVal) (size : Nat) (hs : 0 < size) :
    (∃ i, i < size ∧ p i = (scanMinMaxF p size).1) ∧
    (∃ j, j < size ∧ p j = (scanMinMaxF p size).2) ∧
    ∀ i, i < size →
      ltF (p i) (scanMinMaxF p size).1 = false ∧ ltF (scanMinMaxF p size).2 (p i) = false := by
  have hsz : size - 1 + 1 = size := by omega
  have := scanF_fold_inv p (size - 1)
  rw [hsz] at this
  exact this

theorem noNaNNoNegInf_cases (F : FloatFormat) (p : Nat → FVal) (size : Nat)
    (h : NoNaNNoNegInf F p size) (i : Nat) (hi : i < size) :
    (∃ q, p i = .fin q ∧ Representable F q) ∨ p i = .pinf := by
  have := h i hi
  cases hp : p i with
  | fin q =>
    rw [hp] at this
    exact Or.inl ⟨q, rfl, by simpa [isFiniteOrPosInf] using this⟩
  | pinf => exact Or.inr rfl
  | ninf => rw [hp] at this; simp [isFiniteOrPosInf] at this
  | nan => rw [hp] at this; simp [isFiniteOrPosInf] at this

/-- On a buffer without NaN and `-inf` whose elements are not all equal, `aMin` is a finite
element and `range` is `+inf` or a nonzero finite number. -/
theorem scanF_range (F : FloatFormat) (p : Nat → FVal) (size : Nat)
    (hval : NoNaNNoNegInf F p size) (hnc : NonConstantF p size) :
    ∃ lo : ℚ, (scanMinMaxF p size).1 = .fin lo ∧ (∃ i, i < size ∧ p i = .fin lo) ∧
      (rangeOfF F (.fin lo) (scanMinMaxF p size).2 = .pinf ∨
        ∃ r, r ≠ 0 ∧ rangeOfF F (.fin lo) (scanMinMaxF p size).2 = .fin r) := by
  obtain ⟨a, ha, b, hb, hne⟩ := hnc
  have hs : 0 < size := by omega
  obtain ⟨⟨i, hi, hmin⟩, ⟨j, hj, hmax⟩, hbd⟩ := scanMinMaxF_inv p size hs
  generalize scanMinMaxF p size = s at *
  -- `aMin` is finite
  have hlo : ∃ lo, s.1 = .fin lo ∧ Representable F lo := by
    rcases noNaNNoNegInf_cases F p size hval i hi with ⟨q, hq, hr⟩ | hinf
    · exact ⟨q, by rw [← hmin, hq], hr⟩
    · exfalso
      rw [hinf] at hmin
      have hall : ∀ k, k < size → p k = .pinf := by
        intro k hk
        rcases noNaNNoNegInf_cases F p size hval k hk with ⟨q, hq, -⟩ | h
        · have := (hbd k hk).1
          rw [← hmin, hq] at this
          simp [ltF] at this
        · exact h
      exact hne (by rw [hall a ha, hall b hb])
  obtain ⟨lo, hlo1, hlor⟩ := hlo
  refine ⟨lo, hlo1, ⟨i, hi, by rw [hmin, hlo1]⟩, ?_⟩
  rcases noNaNNoNegInf_cases F p size hval j hj with ⟨hi', hq, hr⟩ | hinf
  · -- `aMax` is finite: so is every element
    rw [hmax] at hq
    have hfin : ∀ k, k < size → ∃ q, p k = .fin q ∧ lo ≤ q ∧ q ≤ hi' := by
      intro k hk
      have h1 := (hbd k hk).1
      have h2 := (hbd k hk).2
      rw [hlo1] at h1
      rw [hq] at h2
      rcases noNaNNoNegInf_cases F p size hval k hk with ⟨q, hpk, -⟩ | h
      · rw [hpk] at h1 h2
        simp only [ltF, decide_eq_false_iff_not, not_lt] at h1 h2
        exact ⟨q, hpk, h1, h2⟩
      · rw [h] at h2
        simp [ltF] at h2
    obtain ⟨qa, hqa, ha1, ha2⟩ := hfin a ha
    obtain ⟨qb, hqb, hb1, hb2⟩ := hfin b hb
    have hab : qa ≠ qb := by
      intro h
      exact hne (by rw [hqa, hqb, h])
    have hlt : lo < hi' := by
      rcases lt_or_gt_of_ne hab with h | h
      · linarith
      · linarith
    rw [hq]
    exact roundF_sub_pos F lo hi' hlor hr hlt
  · rw [hmax] at hinf
    rw [hinf]
    left
    rfl

/-- For a buffer without NaN and `-inf` whose elements are not all equal, both outputs are
elements of the buffer and both smallest distances end below the start value. -/
theorem findF_present (F : FloatFormat) (p : Nat → FVal) (size : Nat)
    (out0 : FVal × FVal) (hval : NoNaNNoNegInf F p size) (hnc : NonConstantF p size) :
    (∃ i j, i < size ∧ j < size ∧
      (findMinMaxPercentileF F p size out0).1 = p i ∧
      (findMinMaxPercentileF F p size out0).2 = p j) ∧
    ltF (selectLoopF p size (scanMinMaxF p size).1
      (rangeOfF F (scanMinMaxF p size).1 (scanMinMaxF p size).2) out0).closestMinP
        sentinelF = true ∧
    ltF (selectLoopF p size (scanMinMaxF p size).1
      (rangeOfF F (scanMinMaxF p size).1 (scanMinMaxF p size).2) out0).closestMaxP
        sentinelF = true := by
  have hs : 0 < size := by
    obtain ⟨a, ha, -⟩ := hnc
    omega
  obtain ⟨lo, he, ⟨i, hi1, hi2⟩, hrange⟩ := scanF_range F p size hval hnc
  rw [he]
  obtain ⟨range, hrdef⟩ : ∃ r, r = rangeOfF F (.fin lo) (scanMinMaxF p size).2 := ⟨_, rfl⟩
  rw [← hrdef] at hrange ⊢
  have hnz : isZeroF range = false := by
    rcases hrange with h | ⟨r, hr0, h⟩
    · rw [h]; rfl
    · rw [h]; simp [isZeroF, hr0]
  have hmin := trackF_fold_spec p (minPOfF (.fin lo) range) out0.1 sentinelF size
  have hmax := trackF_fold_spec p (maxPOfF (.fin lo) range) out0.2 sentinelF size
  have h1 := selectF_min_proj p (.fin lo) range (List.range size)
    { min := out0.1, max := out0.2, closestMinP := sentinelF, closestMaxP := sentinelF }
  have h2 := selectF_max_proj p (.fin lo) range (List.range size)
    { min := out0.1, max := out0.2, closestMinP := sentinelF, closestMaxP := sentinelF }
  dsimp only at h1 h2
  rcases hmin with ⟨-, hall⟩ | ⟨m, hm, hme, hmlt⟩
  · have := hall i hi1
    rw [hi2, minPOfF_self_lt lo range hrange] at this
    exact absurd this (by simp)
  rcases hmax with ⟨-, hall⟩ | ⟨n, hn, hne', hnlt⟩
  · have := hall i hi1
    rw [hi2, maxPOfF_self_lt lo range hrange] at this
    exact absurd this (by simp)
  rw [hme] at h1
  rw [hne'] at h2
  have a1 := congrArg Prod.fst h1
  have a2 := congrArg Prod.snd h1
  have b1 := congrArg Prod.fst h2
  have b2 := congrArg Prod.snd h2
  dsimp only at a1 a2 b1 b2
  have hres : findMinMaxPercentileF F p size out0 = (p m, p n) := by
    unfold findMinMaxPercentileF
    rw [if_neg (by omega : ¬ size = 0)]
    simp only [he, ← hrdef, hnz]
    unfold selectLoopF
    simp [a1, b1]
  refine ⟨⟨m, n, hm, hn, by rw [hres], by rw [hres]⟩, ?_, ?_⟩
  · unfold selectLoopF
    rw [a2]
    exact hmlt
  · unfold selectLoopF
    rw [b2]
    exact hnlt

/-! ## Constant buffers and presence of the outputs -/

/-- C4, as the claim states it, fails: the `float` buffer `[+inf, +inf]` holds two identical
values; `aMax - aMin` is NaN, `range == 0` is false, every percentile is NaN, no comparison
succeeds and `*min`, `*max` keep the values they had before the call (here `7`), not `0`. -/
theorem constant_inf_not_zero :
    (0 < 2 ∧ ∀ i, i < 2 → infConstBuf i = .pinf) ∧
    rangeOfF binary32 (scanMinMaxF infConstBuf 2).1 (scanMinMaxF infConstBuf 2).2 = .nan ∧
    findMinMaxPercentileF binary32 infConstBuf 2 (.fin 7, .fin 7) = (.fin 7, .fin 7) ∧
    findMinMaxPercentileF binary32 infConstBuf 2 (.fin 7, .fin 7) ≠ (.fin 0, .fin 0) := by
  refine ⟨⟨by decide, by decide⟩, by decide!, by decide!, by decide!⟩

/-- C4, amended: a buffer of `size > 0` identical values of an integer element type, or of
identical finite values of type `float` or `double`, yields `(0, 0)`, for every value and
every `size`. -/
theorem constant_buffer (T : ElemType) (p : Nat → Int) (size : Nat) (out0 : Int × Int)
    (c : Int) (F : FloatFormat) (pf : Nat → FVal) (sizeF : Nat) (outF : FVal × FVal) (cf : ℚ)
    (hs : 0 < size) (hc : ∀ i, i < size → p i = c)
    (hsF : 0 < sizeF) (hcF : ∀ i, i < sizeF → pf i = .fin cf) :
    findMinMaxPercentile T p size out0 = (0, 0) ∧
    findMinMaxPercentileF F pf sizeF outF = (.fin 0, .fin 0) := by
  constructor
  · apply find_of_range_zero
    obtain ⟨-, ⟨i, hi, hmin⟩, ⟨j, hj, hmax⟩⟩ := scanMinMax_spec p size hs
    rw [← hmin, ← hmax, hc i hi, hc j hj]
    exact rangeOf_self T c
  · exact findF_constant F pf sizeF outF cf hsF hcF

/-- Instance of `constant_buffer` on the `uint16` buffer `[5, 5, 5]` and the `float` buffer
`[5, 5, 5]`. -/
theorem constant_buffer_witness :
    ((0 < 3 ∧ ∀ i, i < 3 → ofList [5, 5, 5] i = 5) ∧
      (0 < 3 ∧ ∀ i, i < 3 → floatConstBuf i = .fin 5)) ∧
    findMinMaxPercentile .uint16 (ofList [5, 5, 5]) 3 (7, 7) = (0, 0) ∧
    findMinMaxPercentileF binary32 floatConstBuf 3 (.fin 7, .fin 7) = (.fin 0, .fin 0) :=
  ⟨⟨⟨by decide, by decide⟩, ⟨by decide, by decide⟩⟩,
    constant_buffer .uint16 (ofList [5, 5, 5]) 3 (7, 7) 5 binary32 floatConstBuf 3
      (.fin 7, .fin 7) 5 (by decide) (by decide) (by decide) (by decide)⟩

/-- C3, as the claim states it, fails: in the `float` buffers `[+inf, -inf]` and
`[NaN, 1, 2]`, whose elements are not all equal, every percentile is NaN, no comparison with
the smallest distance succeeds, both smallest distances stay at `9999`, and `*min`, `*max`
keep the values they had before the call (here `7`), which is no element of the buffer. -/
theorem outputs_unassigned_float :
    (NonConstantF infPairBuf 2 ∧
      findMinMaxPercentileF binary32 infPairBuf 2 (.fin 7, .fin 7) = (.fin 7, .fin 7) ∧
      (∀ i, i < 2 → infPairBuf i ≠ .fin 7) ∧
      (selectLoopF infPairBuf 2 (scanMinMaxF infPairBuf 2).1
        (rangeOfF binary32 (scanMinMaxF infPairBuf 2).1 (scanMinMaxF infPairBuf 2).2)
        (.fin 7, .fin 7)).closestMinP = sentinelF) ∧
    (NonConstantF nanFirstBuf 3 ∧
      findMinMaxPercentileF binary32 nanFirstBuf 3 (.fin 7, .fin 7) = (.fin 7, .fin 7) ∧
      (∀ i, i < 3 → nanFirstBuf i ≠ .fin 7) ∧
      (selectLoopF nanFirstBuf 3 (scanMinMaxF nanFirstBuf 3).1
        (rangeOfF binary32 (scanMinMaxF nanFirstBuf 3).1 (scanMinMaxF nanFirstBuf 3).2)
        (.fin 7, .fin 7)).closestMinP = sentinelF) := by
  refine ⟨⟨by decide, by decide!, by decide, by decide!⟩,
    ⟨by decide, by decide!, by decide, by decide!⟩⟩

/-- C3, amended: for every non-empty buffer whose elements are not all equal, of an integer
element type, or of type `float` or `double` with no NaN and no `-inf` among the elements
(each element finite or `+inf`), both outputs are elements of the buffer, whatever `*min`
and `*max` held before the call: there are indices `i, j < size` with `minOut = p[i]` and
`maxOut = p[j]`, and both smallest distances end strictly below the start value `9999`. -/
theorem outputs_present (T : ElemType) (p : Nat → Int) (size : Nat) (out0 : Int × Int)
    (F : FloatFormat) (pf : Nat → FVal) (sizeF : Nat) (outF : FVal × FVal)
    (hT : Typed T p size) (hnc : NonConstant p size)
    (hval : NoNaNNoNegInf F pf sizeF) (hncF : NonConstantF pf sizeF) :
    ((∃ i j, i < size ∧ j < size ∧
        (findMinMaxPercentile T p size out0).1 = p i ∧
        (findMinMaxPercentile T p size out0).2 = p j) ∧
      (selectLoop p size (scanMinMax p size).1
        (rangeOf T (scanMinMax p size).1 (scanMinMax p size).2) out0).closestMinP < sentinel ∧
      (selectLoop p size (scanMinMax p size).1
        (rangeOf T (scanMinMax p size).1 (scanMinMax p size).2) out0).closestMaxP < sentinel) ∧
    ((∃ i j, i < sizeF ∧ j < sizeF ∧
        (findMinMaxPercentileF F pf sizeF outF).1 = pf i ∧
        (findMinMaxPercentileF F pf sizeF outF).2 = pf j) ∧
      ltF (selectLoopF pf sizeF (scanMinMaxF pf sizeF).1
        (rangeOfF F (scanMinMaxF pf sizeF).1 (scanMinMaxF pf sizeF).2) outF).closestMinP
          sentinelF = true ∧
      ltF (selectLoopF pf sizeF (scanMinMaxF pf sizeF).1
        (rangeOfF F (scanMinMaxF pf sizeF).1 (scanMinMaxF pf sizeF).2) outF).closestMaxP
          sentinelF = true) := by
  constructor
  · have hs := nonConstant_pos p size hnc
    obtain ⟨h1, h2⟩ := scan_inRange T p size hs hT
    have hr := rangeOf_ne_zero T _ _ h1 h2 (scan_lt_of_nonConstant p size hnc)
    obtain ⟨i, j, hi, hj, he⟩ := find_select T p size out0 hs hr
    obtain ⟨-, hmin, -⟩ := scanMinMax_spec p size hs
    exact ⟨⟨i, j, hi.1, hj.1, by rw [he], by rw [he]⟩, select_closest_lt p size _ _ out0 hmin⟩
  · exact findF_present F pf sizeF outF hval hncF

/-- Instance of `outputs_present` on the `uint16` buffer `[0, 2, 10]` and the `float` buffer
`[+inf, 0, 2, 10]`, with `*min = *max = 7` before the call. -/
theorem outputs_present_witness :
    ((Typed .uint16 tieBufA 3 ∧ NonConstant tieBufA 3) ∧
      (NoNaNNoNegInf binary32 floatInfBuf 4 ∧ NonConstantF floatInfBuf 4)) ∧
    ((∃ i j, i < 3 ∧ j < 3 ∧
        (findMinMaxPercentile .uint16 tieBufA 3 (7, 7)).1 = tieBufA i ∧
        (findMinMaxPercentile .uint16 tieBufA 3 (7, 7)).2 = tieBufA j) ∧
      (selectLoop tieBufA 3 (scanMinMax tieBufA 3).1
        (rangeOf .uint16 (scanMinMax tieBufA 3).1 (scanMinMax tieBufA 3).2)
        (7, 7)).closestMinP < sentinel ∧
      (selectLoop tieBufA 3 (scanMinMax tieBufA 3).1
        (rangeOf .uint16 (scanMinMax tieBufA 3).1 (scanMinMax tieBufA 3).2)
        (7, 7)).closestMaxP < sentinel) ∧
    ((∃ i j, i < 4 ∧ j < 4 ∧
        (findMinMaxPercentileF binary32 floatInfBuf 4 (.fin 7, .fin 7)).1 = floatInfBuf i ∧
        (findMinMaxPercentileF binary32 floatInfBuf 4 (.fin 7, .fin 7)).2 = floatInfBuf j) ∧
      ltF (selectLoopF floatInfBuf 4 (scanMinMaxF floatInfBuf 4).1
        (rangeOfF binary32 (scanMinMaxF floatInfBuf 4).1 (scanMinMaxF floatInfBuf 4).2)
        (.fin 7, .fin 7)).closestMinP sentinelF = true ∧
      ltF (selectLoopF floatInfBuf 4 (scanMinMaxF floatInfBuf 4).1
        (rangeOfF binary32 (scanMinMaxF floatInfBuf 4).1 (scanMinMaxF floatInfBuf 4).2)
        (.fin 7, .fin 7)).closestMaxP sentinelF = true) :=
  ⟨⟨⟨by decide, by decide⟩, ⟨by decide!, by decide⟩⟩,
    outputs_present .uint16 tieBufA 3 (7, 7) binary32 floatInfBuf 4 (.fin 7, .fin 7)
      (by decide) (by decide) (by decide!) (by decide)⟩

end CImage

end SEACAVE
